import Mathlib

/-!
Verification development for the `merger` external sort-merge engine.

The repository deduplicates and sorts line-oriented byte records from many
input files: a chunk builder accumulates at most `chunk_lines` framed lines,
sorts and deduplicates each chunk into a scratch Run, and a bounded-fan-in
(`K = 64`) multiway merge reduces the Runs to a single output file.

The definitions below are a shallow embedding of the Rust source:
  * `trimLineBreak`, `frameLines`  — `src/lines.rs` (`trim_line_break`,
    the `read_next_line` loop over a whole byte stream);
  * `flushedRun`, `build`          — `src/chunker.rs` (`ChunkBuilder`);
  * `popMin`, `mergeLoop`, `mergeIntoWriter`, `mergeRound`, `merge_chunks`
                                   — `src/merger.rs`;
  * `TempFileFactory`              — `src/temp.rs`;
  * `executePipeline`              — `src/lib.rs` (`execute_pipeline`).

Bytes are modelled as `Nat` (file bytes are < 256; the order used by the
code is unsigned byte order, which agrees with `Nat` order), byte streams
and Lines as `List Nat`, and files on disk by their byte contents.
-/

namespace Merger

/-- A byte of an input stream (unsigned, so `Nat` with the usual order). -/
abbrev Byte := Nat

/-- A Line: a record's byte content, as framed by `frameLines`. -/
abbrev Line := List Byte

/-! ## Line framing (`src/lines.rs`) -/

/-- `trim_line_break` from `src/lines.rs`: pop (`dropLast`) a trailing `\n`
(byte 10) and then a `\r` (byte 13) directly before it; a lone trailing
`\r` with no `\n` is also popped.  `getLast?` models `Vec::last` and
`dropLast` models `Vec::pop`. -/
def trimLineBreak (line : List Byte) : List Byte :=
  if line.getLast? = some 10 then
    let l2 := line.dropLast
    if l2.getLast? = some 13 then l2.dropLast else l2
  else if line.getLast? = some 13 then line.dropLast
  else line

/-- The loop of `read_next_line` calls over a whole stream: `read_until`
accumulates bytes up to and including a `\n`, the segment is passed through
`trimLineBreak`; a nonempty unterminated final segment is still yielded.
`acc` holds the current segment in reverse. -/
def frameAux (acc : List Byte) : List Byte → List Line
  | [] => if acc.isEmpty then [] else [trimLineBreak acc.reverse]
  | b :: rest =>
    if b = 10 then trimLineBreak (acc.reverse ++ [10]) :: frameAux [] rest
    else frameAux (b :: acc) rest

/-- All Lines framed from one byte stream, in order. -/
def frameLines (s : List Byte) : List Line := frameAux [] s

/-- Drop one trailing `\r` (byte 13) if present: the net effect of the
framer's terminator handling on the payload before a `\n`, stated
independently of `trimLineBreak`. -/
def stripCR (l : List Byte) : List Byte :=
  if l.getLast? = some 13 then l.dropLast else l

/-! ## Byte-lexicographic order on Lines (Rust `Vec<u8>` `Ord`) -/

/-- Strict lexicographic order on byte sequences (Rust `Vec<u8>` `<`). -/
def lineLt : Line → Line → Bool
  | [], [] => false
  | [], _ :: _ => true
  | _ :: _, [] => false
  | a :: as, b :: bs => if a < b then true else if b < a then false else lineLt as bs

/-- Lexicographic `≤` on byte sequences (Rust `Vec<u8>` `<=`). -/
def lineLe : Line → Line → Bool
  | [], _ => true
  | _ :: _, [] => false
  | a :: as, b :: bs => if a < b then true else if b < a then false else lineLe as bs

/-! ## Chunk builder (`src/chunker.rs`) -/

/-- `Vec::dedup` tail worker: drop each element equal to the previously kept
one. -/
def dedupAux (prev : Line) : List Line → List Line
  | [] => []
  | b :: rest => if b = prev then dedupAux prev rest else b :: dedupAux b rest

/-- Rust `Vec::dedup`: remove adjacent duplicate Lines, keeping the first of
each group. -/
def dedup : List Line → List Line
  | [] => []
  | a :: rest => a :: dedupAux a rest

/-- Sorted insertion of one Line (helper for `sortLines`). -/
def insertLine (l : Line) : List Line → List Line
  | [] => [l]
  | x :: xs => if lineLe l x then l :: x :: xs else x :: insertLine l xs

/-- `chunk.sort_unstable()`: sort ascending by byte order.  Lines that
compare equal are identical `Vec<u8>` values, so every correct sort returns
the same list; insertion sort models it (see `sortLines_eq_mergeSort`). -/
def sortLines : List Line → List Line
  | [] => []
  | l :: ls => insertLine l (sortLines ls)

/-- The record list written by `ChunkBuilder::flush_chunk` for one chunk:
sort ascending, remove adjacent duplicates. -/
def flushedRun (chunk : List Line) : List Line := dedup (sortLines chunk)

/-- The byte contents of a file holding the given records: each Line is
written once, terminated by a single `\n`. -/
def linesToBytes (ls : List Line) : List Byte := (ls.map (fun l => l ++ [10])).flatten

/-- Accumulation state of `ChunkBuilder::build`: the current chunk, the line
counter since the last flush, and the Runs flushed so far (as record
lists). -/
structure BuildState where
  chunk : List Line
  count : Nat
  runs : List (List Line)

/-- `flush_chunk`: a no-op on an empty chunk, otherwise append the sorted,
deduplicated chunk as a fresh Run. -/
def flushChunk (chunk : List Line) (runs : List (List Line)) : List (List Line) :=
  if chunk.isEmpty then runs else runs ++ [flushedRun chunk]

/-- The body of the read loop in `ChunkBuilder::build`: push the line,
bump the counter and flush when it reaches the bound. -/
def processLine (maxLines : Nat) (st : BuildState) (line : Line) : BuildState :=
  let chunk := st.chunk ++ [line]
  let count := st.count + 1
  if maxLines ≤ count then ⟨[], 0, flushChunk chunk st.runs⟩
  else ⟨chunk, count, st.runs⟩

/-- `ChunkBuilder::build`: stream the Lines of every file in order through
`processLine` (chunks span file boundaries), then flush the final partial
chunk.  Returns the record lists of the produced Runs. -/
def build (maxLines : Nat) (files : List (List Byte)) : List (List Line) :=
  let st := files.foldl (fun st f => (frameLines f).foldl (processLine maxLines) st)
    ⟨[], 0, []⟩
  flushChunk st.chunk st.runs

/-! ## Merge engine (`src/merger.rs`) -/

/-- `MAX_OPEN_MERGE_FILES`: the fan-in bound `K`. -/
def MAX_OPEN_MERGE_FILES : Nat := 64

/-- Order on heap entries: Rust `Ord` on `(Vec<u8>, usize)` is lexicographic,
line first, then source index. -/
def pairLe (a b : Line × Nat) : Bool :=
  if a.1 = b.1 then a.2 ≤ b.2 else lineLt a.1 b.1

/-- `BinaryHeap<Reverse<(Vec<u8>, usize)>>::pop`: remove and return a
`pairLe`-least entry of the heap (entries carry distinct indices in every
reachable state, so the least entry is unique). -/
def popMin : List (Line × Nat) → Option ((Line × Nat) × List (Line × Nat))
  | [] => none
  | x :: xs =>
    match popMin xs with
    | none => some (x, [])
    | some (m, rest) => if pairLe x m then some (x, xs) else some (m, x :: rest)

/-- Total number of Lines still unread from the sources. -/
def totalLen (sources : List (List Line)) : Nat := (sources.map List.length).sum

/-- The drain loop of `merge_into_writer`: pop the least `(line, idx)`,
write the line unless it equals the last written one, then read the next
line of source `idx` into the heap.  `fuel` only bounds the recursion; any
`fuel ≥ totalLen sources + heap.length` is enough to drain. -/
def mergeLoop (fuel : Nat) (sources : List (List Line)) (heap : List (Line × Nat))
    (lastWritten : Option Line) : List Line :=
  match fuel with
  | 0 => []
  | fuel + 1 =>
    match popMin heap with
    | none => []
    | some ((line, idx), heapRest) =>
      let step :=
        match sources.getD idx [] with
        | [] => (sources, heapRest)
        | next :: rest => (sources.set idx rest, (next, idx) :: heapRest)
      if lastWritten = some line then
        mergeLoop fuel step.1 step.2 lastWritten
      else
        line :: mergeLoop fuel step.1 step.2 (some line)

/-- The initial fill of `merge_into_writer`: read the first line of each
source, in index order, into the heap; sources keep their tails. -/
def initHeap (i : Nat) : List (List Line) → List (List Line) × List (Line × Nat)
  | [] => ([], [])
  | s :: ss =>
    let p := initHeap (i + 1) ss
    match s with
    | [] => ([] :: p.1, p.2)
    | l :: rest => (rest :: p.1, (l, i) :: p.2)

/-- `merge_into_writer` on the record sequences of its sources: the list of
records it writes to the destination. -/
def mergeIntoWriter (sources : List (List Line)) : List Line :=
  if sources.isEmpty then []
  else
    let p := initHeap 0 sources
    mergeLoop (totalLen sources + 1) p.1 p.2 none

/-- `merge_group_into_temp`: merge one group of Run files into a fresh
intermediate Run file; the sources are re-read through the Line framer. -/
def mergeGroup (group : List (List Byte)) : List Byte :=
  linesToBytes (mergeIntoWriter (group.map frameLines))

/-- Consecutive groups of at most `MAX_OPEN_MERGE_FILES` Runs, as formed by
the group-accumulation loop of `merge_chunks`.  `fuel ≥ l.length` is enough. -/
def chunksOfK (fuel : Nat) (l : List (List Byte)) : List (List (List Byte)) :=
  match fuel with
  | 0 => []
  | fuel + 1 =>
    if l.isEmpty then []
    else l.take MAX_OPEN_MERGE_FILES :: chunksOfK fuel (l.drop MAX_OPEN_MERGE_FILES)

/-- One round of the `while temp_files.len() > MAX_OPEN_MERGE_FILES` loop:
merge each group of `K` Runs; a leftover group of exactly one Run is passed
through unchanged. -/
def mergeRound (runs : List (List Byte)) : List (List Byte) :=
  (chunksOfK runs.length runs).map (fun g =>
    match g with
    | [r] => r
    | g => mergeGroup g)

/-- The full round loop: repeat `mergeRound` while more than `K` Runs
remain.  `fuel ≥ runs.length` is enough for the loop to reach `≤ K`. -/
def mergeRoundsFuel (fuel : Nat) (runs : List (List Byte)) : List (List Byte) :=
  match fuel with
  | 0 => runs
  | fuel + 1 =>
    if MAX_OPEN_MERGE_FILES < runs.length then mergeRoundsFuel fuel (mergeRound runs)
    else runs

/-- `merge_chunks`: with no Runs, create an empty output file; otherwise
reduce the Runs to at most `K` by rounds and merge them into the output
file. -/
def merge_chunks (runs : List (List Byte)) : List Byte :=
  if runs.isEmpty then []
  else
    let final := mergeRoundsFuel runs.length runs
    linesToBytes (mergeIntoWriter (final.map frameLines))

/-! ## Pipeline (`src/lib.rs`, `src/config.rs`) -/

/-- `Config::validated_chunk_lines`: the chunk bound, floored at one. -/
def validatedChunkLines (chunkLines : Nat) : Nat := max chunkLines 1

/-- `execute_pipeline`: chunk build followed by merge; the output file's
byte contents for the given input files' byte contents. -/
def executePipeline (chunkLines : Nat) (files : List (List Byte)) : List Byte :=
  merge_chunks ((build (validatedChunkLines chunkLines) files).map linesToBytes)

/-- All Lines framed from all input files, in order. -/
def allLines (files : List (List Byte)) : List Line := (files.map frameLines).flatten

/-- Modelled from the spec (§3 Output file, §8): the output the spec
promises — the distinct Lines across all inputs, each exactly once, in
ascending byte order, each terminated by a single `\n`.  Used only to
compare the pipeline against the spec's words. -/
def specOutput (files : List (List Byte)) : List Byte :=
  linesToBytes (dedup (sortLines (allLines files)))

/-- Well-formedness of a materialized Run file: its framed records are
strictly ascending, contain no `\n` byte and do not end in `\r`, and the
file is exactly those records, each terminated by one `\n`.  Every Run the
chunk builder flushes from CR-free input satisfies this, and it is
preserved by intermediate merge rounds. -/
def GoodRun (r : List Byte) : Prop :=
  List.Pairwise (fun a b => lineLt a b = true) (frameLines r) ∧
    (∀ l ∈ frameLines r, (10 : Byte) ∉ l ∧ l.getLast? ≠ some 13) ∧
    r = linesToBytes (frameLines r)

/-! ## Scratch allocator (`src/temp.rs`) -/

/-- A directory path, abstractly. -/
abbrev Dir := String

/-- The decision state of `TempFileFactory`: the primary scratch directory
and the optional fallback. -/
structure TempFileFactory where
  primary : Dir
  fallback : Option Dir
deriving DecidableEq, Repr

/-- `TempFileFactory::new` (its directory-selection logic): primary is the
preferred directory if given, else the output's parent; the system temp
directory becomes the fallback only when no directory was preferred and it
differs from the primary. -/
def TempFileFactory.new (systemTemp : Dir) (preferred : Option Dir)
    (outputParent : Dir) : TempFileFactory :=
  let primary := preferred.getD outputParent
  let fallback :=
    match preferred with
    | some _ => none
    | none => if systemTemp ≠ primary then some systemTemp else none
  ⟨primary, fallback⟩

/-- Outcome of one `TempFileFactory::create` call. -/
inductive CreateOutcome where
  /-- A scratch file was created in `dir`. -/
  | created (dir : Dir)
  /-- Creation failed in the primary directory and there was no fallback;
  the error names the primary directory. -/
  | failedPrimaryOnly (primary : Dir)
  /-- Creation failed in both directories; the single error names both
  attempted locations (and tells the operator to pass an explicit
  directory). -/
  | failedBoth (primary fallback : Dir)
deriving DecidableEq, Repr

/-- `TempFileFactory::create`: try the primary directory first, then the
fallback if present; `ok d` says whether creating a temp file in `d`
succeeds. -/
def TempFileFactory.create (ok : Dir → Bool) (f : TempFileFactory) : CreateOutcome :=
  if ok f.primary then .created f.primary
  else
    match f.fallback with
    | some fb => if ok fb then .created fb else .failedBoth f.primary fb
    | none => .failedPrimaryOnly f.primary

/-! ## Order lemmas for `lineLt` / `lineLe` -/

theorem lineLe_refl (l : Line) : lineLe l l = true := by
  induction l with
  | nil => rfl
  | cons a as ih => simp [lineLe, ih]

theorem lineLe_total (a b : Line) : lineLe a b = true ∨ lineLe b a = true := by
  induction a generalizing b with
  | nil => exact Or.inl rfl
  | cons x xs ih =>
    cases b with
    | nil => exact Or.inr rfl
    | cons y ys =>
      rcases Nat.lt_trichotomy x y with h | h | h
      · exact Or.inl (by simp [lineLe, h])
      · subst h
        rcases ih ys with h2 | h2
        · exact Or.inl (by simp [lineLe, h2])
        · exact Or.inr (by simp [lineLe, h2])
      · exact Or.inr (by simp [lineLe, h])

theorem lineLe_trans {a b c : Line} (hab : lineLe a b = true)
    (hbc : lineLe b c = true) : lineLe a c = true := by
  induction a generalizing b c with
  | nil => rfl
  | cons x xs ih =>
    cases b with
    | nil => simp [lineLe] at hab
    | cons y ys =>
      cases c with
      | nil => simp [lineLe] at hbc
      | cons z zs =>
        simp only [lineLe] at hab hbc ⊢
        split at hab
        · rename_i hxy
          split at hbc
          · rename_i hyz
            have : x < z := Nat.lt_trans hxy hyz
            simp [this]
          · split at hbc
            · exact absurd hbc (by simp)
            · rename_i h1 h2
              have hyz : y = z := Nat.le_antisymm (Nat.le_of_not_lt h2) (Nat.le_of_not_lt h1)
              subst hyz
              simp [hxy]
        · split at hab
          · exact absurd hab (by simp)
          · rename_i h1 h2
            have hxy : x = y := Nat.le_antisymm (Nat.le_of_not_lt h2) (Nat.le_of_not_lt h1)
            subst hxy
            split at hbc
            · rename_i hyz
              simp [hyz]
            · split at hbc
              · exact absurd hbc (by simp)
              · rename_i h3 h4
                have hyz : x = z := Nat.le_antisymm (Nat.le_of_not_lt h4) (Nat.le_of_not_lt h3)
                subst hyz
                simp [ih hab hbc]

theorem lineLe_antisymm {a b : Line} (hab : lineLe a b = true)
    (hba : lineLe b a = true) : a = b := by
  induction a generalizing b with
  | nil =>
    cases b with
    | nil => rfl
    | cons y ys => simp [lineLe] at hba
  | cons x xs ih =>
    cases b with
    | nil => simp [lineLe] at hab
    | cons y ys =>
      simp only [lineLe] at hab hba
      split at hab
      · rename_i hxy
        rw [if_neg (Nat.lt_asymm hxy), if_pos hxy] at hba
        exact absurd hba (by simp)
      · split at hab
        · exact absurd hab (by simp)
        · rename_i h1 h2
          have hxy : x = y := Nat.le_antisymm (Nat.le_of_not_lt h2) (Nat.le_of_not_lt h1)
          subst hxy
          rw [if_neg h1, if_neg h1] at hba
          rw [ih hab hba]

theorem lineLt_iff {a b : Line} : lineLt a b = true ↔ lineLe a b = true ∧ a ≠ b := by
  induction a generalizing b with
  | nil =>
    cases b with
    | nil => simp [lineLt, lineLe]
    | cons y ys => simp [lineLt, lineLe]
  | cons x xs ih =>
    cases b with
    | nil => simp [lineLt, lineLe]
    | cons y ys =>
      simp only [lineLt, lineLe]
      rcases Nat.lt_trichotomy x y with h | h | h
      · simp [h, Nat.ne_of_lt h]
      · subst h
        simp only [Nat.lt_irrefl, if_false]
        rw [ih]
        simp
      · simp [h, Nat.lt_asymm h]

theorem lineLt_irrefl (a : Line) : lineLt a a = false := by
  by_contra h
  have h2 : lineLt a a = true := by
    cases h3 : lineLt a a with
    | false => exact absurd h3 h
    | true => rfl
  exact (lineLt_iff.mp h2).2 rfl

theorem lineLe_of_lineLt {a b : Line} (h : lineLt a b = true) : lineLe a b = true :=
  (lineLt_iff.mp h).1

theorem lineLt_of_le_of_ne {a b : Line} (h : lineLe a b = true) (hne : a ≠ b) :
    lineLt a b = true :=
  lineLt_iff.mpr ⟨h, hne⟩

theorem lineLt_of_le_of_lt {a b c : Line} (hab : lineLe a b = true)
    (hbc : lineLt b c = true) : lineLt a c = true := by
  rcases lineLt_iff.mp hbc with ⟨hbc', hne⟩
  refine lineLt_iff.mpr ⟨lineLe_trans hab hbc', ?_⟩
  rintro rfl
  exact hne (lineLe_antisymm hbc' hab)

theorem lineLt_of_lt_of_le {a b c : Line} (hab : lineLt a b = true)
    (hbc : lineLe b c = true) : lineLt a c = true := by
  rcases lineLt_iff.mp hab with ⟨hab', hne⟩
  refine lineLt_iff.mpr ⟨lineLe_trans hab' hbc, ?_⟩
  rintro rfl
  exact hne (lineLe_antisymm hab' hbc)

theorem lineLt_trans {a b c : Line} (hab : lineLt a b = true)
    (hbc : lineLt b c = true) : lineLt a c = true :=
  lineLt_of_le_of_lt (lineLe_of_lineLt hab) hbc

theorem lineLt_asymm {a b : Line} (hab : lineLt a b = true) :
    lineLt b a = false := by
  by_contra h
  have hba : lineLt b a = true := by
    cases h3 : lineLt b a with
    | false => exact absurd h3 h
    | true => rfl
  have := lineLt_trans hab hba
  rw [lineLt_irrefl] at this
  exact absurd this (by simp)

theorem lineLe_of_not_le {a b : Line} (h : ¬ lineLe a b = true) : lineLe b a = true := by
  rcases lineLe_total a b with h2 | h2
  · exact absurd h2 h
  · exact h2

theorem lineLt_of_not_le {a b : Line} (h : ¬ lineLe a b = true) : lineLt b a = true := by
  refine lineLt_of_le_of_ne (lineLe_of_not_le h) ?_
  rintro rfl
  exact h (lineLe_refl _)

/-! ## Sorting and deduplication lemmas -/

theorem insertLine_perm (l : Line) (xs : List Line) :
    (insertLine l xs).Perm (l :: xs) := by
  induction xs with
  | nil => exact List.Perm.refl _
  | cons x xs ih =>
    simp only [insertLine]
    split
    · exact List.Perm.refl _
    · exact (ih.cons x).trans (List.Perm.swap l x xs)

theorem sortLines_perm (c : List Line) : (sortLines c).Perm c := by
  induction c with
  | nil => exact List.Perm.refl _
  | cons l ls ih => exact (insertLine_perm l (sortLines ls)).trans (ih.cons l)

theorem mem_sortLines {x : Line} {c : List Line} : x ∈ sortLines c ↔ x ∈ c :=
  (sortLines_perm c).mem_iff

theorem insertLine_pairwise {l : Line} {xs : List Line}
    (h : List.Pairwise (fun a b => lineLe a b = true) xs) :
    List.Pairwise (fun a b => lineLe a b = true) (insertLine l xs) := by
  induction xs with
  | nil => simp [insertLine]
  | cons x xs ih =>
    rcases List.pairwise_cons.mp h with ⟨hx, hxs⟩
    simp only [insertLine]
    split
    · rename_i hle
      refine List.pairwise_cons.mpr ⟨?_, h⟩
      intro y hy
      rcases List.mem_cons.mp hy with rfl | hy
      · exact hle
      · exact lineLe_trans hle (hx y hy)
    · rename_i hnle
      refine List.pairwise_cons.mpr ⟨?_, ih hxs⟩
      intro y hy
      rcases List.mem_cons.mp ((insertLine_perm l xs).mem_iff.mp hy) with rfl | h2
      · exact lineLe_of_not_le hnle
      · exact hx y h2

theorem sortLines_pairwise (c : List Line) :
    List.Pairwise (fun a b => lineLe a b = true) (sortLines c) := by
  induction c with
  | nil => simp [sortLines]
  | cons l ls ih => exact insertLine_pairwise ih

theorem sortLines_eq_mergeSort (c : List Line) : sortLines c = c.mergeSort lineLe := by
  haveI : IsAntisymm Line (fun a b => lineLe a b = true) :=
    ⟨fun _ _ hab hba => lineLe_antisymm hab hba⟩
  have htrans : ∀ a b c : Line, lineLe a b = true → lineLe b c = true →
      lineLe a c = true := fun _ _ _ hab hbc => lineLe_trans hab hbc
  have htotal : ∀ a b : Line, (lineLe a b || lineLe b a) = true := fun a b => by
    rcases lineLe_total a b with h | h <;> simp [h]
  refine List.eq_of_perm_of_sorted ?_ (sortLines_pairwise c) ?_
  · exact (sortLines_perm c).trans (List.mergeSort_perm c lineLe).symm
  · exact List.sorted_mergeSort htrans htotal c

theorem dedupAux_subset {x prev : Line} {l : List Line}
    (h : x ∈ dedupAux prev l) : x ∈ l := by
  induction l generalizing prev with
  | nil => simp [dedupAux] at h
  | cons b rest ih =>
    simp only [dedupAux] at h
    split at h
    · exact List.mem_cons_of_mem _ (ih h)
    · rcases List.mem_cons.mp h with rfl | h2
      · exact List.mem_cons_self _ _
      · exact List.mem_cons_of_mem _ (ih h2)

theorem mem_dedupAux {x : Line} (prev : Line) {l : List Line} (h : x ∈ l) :
    x = prev ∨ x ∈ dedupAux prev l := by
  induction l generalizing prev with
  | nil => simp at h
  | cons b rest ih =>
    simp only [dedupAux]
    rcases List.mem_cons.mp h with rfl | h2
    · split
      · rename_i he
        exact Or.inl he
      · exact Or.inr (List.mem_cons_self _ _)
    · split
      · rename_i he
        subst he
        exact ih b h2
      · rcases ih b h2 with rfl | h3
        · exact Or.inr (List.mem_cons_self _ _)
        · exact Or.inr (List.mem_cons_of_mem _ h3)

theorem mem_dedup {x : Line} {l : List Line} : x ∈ dedup l ↔ x ∈ l := by
  cases l with
  | nil => simp [dedup]
  | cons a rest =>
    simp only [dedup]
    constructor
    · intro h
      rcases List.mem_cons.mp h with rfl | h2
      · exact List.mem_cons_self _ _
      · exact List.mem_cons_of_mem _ (dedupAux_subset h2)
    · intro h
      rcases List.mem_cons.mp h with rfl | h2
      · exact List.mem_cons_self _ _
      · rcases mem_dedupAux a h2 with rfl | h3
        · exact List.mem_cons_self _ _
        · exact List.mem_cons_of_mem _ h3

theorem dedupAux_pairwise {prev : Line} {l : List Line}
    (hp : ∀ y ∈ l, lineLe prev y = true)
    (h : List.Pairwise (fun a b => lineLe a b = true) l) :
    (∀ y ∈ dedupAux prev l, lineLt prev y = true) ∧
      List.Pairwise (fun a b => lineLt a b = true) (dedupAux prev l) := by
  induction l generalizing prev with
  | nil => simp [dedupAux]
  | cons b rest ih =>
    rcases List.pairwise_cons.mp h with ⟨hb, hrest⟩
    simp only [dedupAux]
    split
    · rename_i he
      subst he
      exact ih hb hrest
    · rename_i hne
      have hpb : lineLt prev b = true :=
        lineLt_of_le_of_ne (hp b (List.mem_cons_self _ _)) (fun e => hne e.symm)
      rcases ih hb hrest with ⟨h1, h2⟩
      refine ⟨?_, ?_⟩
      · intro y hy
        rcases List.mem_cons.mp hy with rfl | h3
        · exact hpb
        · exact lineLt_trans hpb (h1 y h3)
      · exact List.pairwise_cons.mpr ⟨h1, h2⟩

theorem dedup_pairwise {l : List Line}
    (h : List.Pairwise (fun a b => lineLe a b = true) l) :
    List.Pairwise (fun a b => lineLt a b = true) (dedup l) := by
  cases l with
  | nil => simp [dedup]
  | cons a rest =>
    rcases List.pairwise_cons.mp h with ⟨ha, hrest⟩
    rcases dedupAux_pairwise ha hrest with ⟨h1, h2⟩
    exact List.pairwise_cons.mpr ⟨h1, h2⟩

theorem flushedRun_pairwise (c : List Line) :
    List.Pairwise (fun a b => lineLt a b = true) (flushedRun c) :=
  dedup_pairwise (sortLines_pairwise c)

theorem mem_flushedRun {x : Line} {c : List Line} : x ∈ flushedRun c ↔ x ∈ c :=
  mem_dedup.trans mem_sortLines

theorem pairwiseLt_nodup {l : List Line}
    (h : List.Pairwise (fun a b => lineLt a b = true) l) : l.Nodup :=
  h.imp (fun hab => (lineLt_iff.mp hab).2)

theorem eq_of_pairwiseLt_ext {l1 l2 : List Line}
    (h1 : List.Pairwise (fun a b => lineLt a b = true) l1)
    (h2 : List.Pairwise (fun a b => lineLt a b = true) l2)
    (hmem : ∀ x, x ∈ l1 ↔ x ∈ l2) : l1 = l2 := by
  haveI : IsAntisymm Line (fun a b => lineLt a b = true) :=
    ⟨fun a b hab hba => by
      have := lineLt_asymm hab
      rw [hba] at this
      exact absurd this (by simp)⟩
  refine List.eq_of_perm_of_sorted ?_ h1 h2
  exact (List.perm_ext_iff_of_nodup (pairwiseLt_nodup h1) (pairwiseLt_nodup h2)).mpr hmem

/-! ## `popMin` (heap pop) lemmas -/

theorem pairLe_refl (a : Line × Nat) : pairLe a a = true := by
  simp [pairLe]

theorem pairLe_total (a b : Line × Nat) : pairLe a b = true ∨ pairLe b a = true := by
  by_cases he : a.1 = b.1
  · rcases Nat.le_total a.2 b.2 with h | h
    · exact Or.inl (by unfold pairLe; rw [if_pos he]; simpa using h)
    · exact Or.inr (by unfold pairLe; rw [if_pos he.symm]; simpa using h)
  · rcases lineLe_total a.1 b.1 with h | h
    · exact Or.inl (by unfold pairLe; rw [if_neg he]; exact lineLt_of_le_of_ne h he)
    · have hne : b.1 ≠ a.1 := fun e => he e.symm
      exact Or.inr (by unfold pairLe; rw [if_neg hne]; exact lineLt_of_le_of_ne h hne)

theorem pairLe_trans {a b c : Line × Nat} (hab : pairLe a b = true)
    (hbc : pairLe b c = true) : pairLe a c = true := by
  unfold pairLe at hab hbc ⊢
  by_cases hab1 : a.1 = b.1
  · by_cases hbc1 : b.1 = c.1
    · rw [if_pos hab1] at hab
      rw [if_pos hbc1] at hbc
      have : a.1 = c.1 := hab1.trans hbc1
      simp only [if_pos this, decide_eq_true_eq] at *
      omega
    · rw [if_neg hbc1] at hbc
      have : a.1 ≠ c.1 := by rw [hab1]; exact hbc1
      rw [if_neg this]
      rw [hab1]
      exact hbc
  · rw [if_neg hab1] at hab
    by_cases hbc1 : b.1 = c.1
    · have : a.1 ≠ c.1 := by rw [← hbc1]; exact hab1
      rw [if_neg this, ← hbc1]
      exact hab
    · rw [if_neg hbc1] at hbc
      have hlt : lineLt a.1 c.1 = true := lineLt_trans hab hbc
      have : a.1 ≠ c.1 := (lineLt_iff.mp hlt).2
      rw [if_neg this]
      exact hlt

theorem pairLe_fst {a b : Line × Nat} (h : pairLe a b = true) :
    lineLe a.1 b.1 = true := by
  unfold pairLe at h
  split at h
  · rename_i he
    rw [he]
    exact lineLe_refl _
  · exact lineLe_of_lineLt h

theorem popMin_eq_none {h : List (Line × Nat)} : popMin h = none ↔ h = [] := by
  cases h with
  | nil => simp [popMin]
  | cons x xs =>
    simp only [popMin]
    constructor
    · intro he
      cases h2 : popMin xs with
      | none => rw [h2] at he; simp at he
      | some p =>
        rw [h2] at he
        rcases p with ⟨m, rest⟩
        by_cases h3 : pairLe x m = true <;> simp [h3] at he
    · intro he
      exact absurd he (by simp)

theorem popMin_perm {h : List (Line × Nat)} {m : Line × Nat}
    {rest : List (Line × Nat)} (e : popMin h = some (m, rest)) :
    h.Perm (m :: rest) := by
  induction h generalizing m rest with
  | nil => simp [popMin] at e
  | cons x xs ih =>
    simp only [popMin] at e
    cases h2 : popMin xs with
    | none =>
      simp only [h2] at e
      have hxs : xs = [] := popMin_eq_none.mp h2
      subst hxs
      simp only [Option.some.injEq, Prod.mk.injEq] at e
      rw [e.1, e.2]
    | some p =>
      rcases p with ⟨m2, rest2⟩
      simp only [h2] at e
      by_cases h3 : pairLe x m2 = true
      · rw [if_pos h3] at e
        simp only [Option.some.injEq, Prod.mk.injEq] at e
        rw [← e.1, ← e.2]
      · rw [if_neg h3] at e
        simp only [Option.some.injEq, Prod.mk.injEq] at e
        rw [← e.1, ← e.2]
        exact ((ih h2).cons x).trans (List.Perm.swap m2 x rest2)

theorem popMin_min {h : List (Line × Nat)} {m : Line × Nat}
    {rest : List (Line × Nat)} (e : popMin h = some (m, rest)) :
    ∀ p ∈ h, pairLe m p = true := by
  induction h generalizing m rest with
  | nil => simp [popMin] at e
  | cons x xs ih =>
    simp only [popMin] at e
    cases h2 : popMin xs with
    | none =>
      simp only [h2] at e
      have hxs : xs = [] := popMin_eq_none.mp h2
      subst hxs
      simp only [Option.some.injEq, Prod.mk.injEq] at e
      intro p hp
      rcases List.mem_cons.mp hp with rfl | h3
      · rw [e.1]; exact pairLe_refl _
      · simp at h3
    | some q =>
      rcases q with ⟨m2, rest2⟩
      simp only [h2] at e
      by_cases h3 : pairLe x m2 = true
      · rw [if_pos h3] at e
        simp only [Option.some.injEq, Prod.mk.injEq] at e
        intro p hp
        rcases List.mem_cons.mp hp with rfl | h4
        · rw [← e.1]; exact pairLe_refl _
        · rw [← e.1]
          exact pairLe_trans h3 (ih h2 p h4)
      · rw [if_neg h3] at e
        simp only [Option.some.injEq, Prod.mk.injEq] at e
        intro p hp
        rcases List.mem_cons.mp hp with rfl | h4
        · rw [← e.1]
          rcases pairLe_total p m2 with h5 | h5
          · exact absurd h5 h3
          · exact h5
        · rw [← e.1]
          exact ih h2 p h4

/-! ## Framing lemmas -/

theorem getLast?_mem_self {a : Byte} {l : List Byte} (h : l.getLast? = some a) :
    a ∈ l := by
  rcases List.mem_getLast?_eq_getLast (Option.mem_def.mpr h) with ⟨hne, he⟩
  rw [he]
  exact List.getLast_mem hne

theorem trimLineBreak_concat_newline (a : List Byte) :
    trimLineBreak (a ++ [10]) = stripCR a := by
  simp [trimLineBreak, stripCR, List.getLast?_concat, List.dropLast_concat]

theorem trimLineBreak_no_newline {a : List Byte} (h : a.getLast? ≠ some 10) :
    trimLineBreak a = stripCR a := by
  simp [trimLineBreak, stripCR, h]

theorem stripCR_eq_self {a : List Byte} (h : a.getLast? ≠ some 13) :
    stripCR a = a := by
  simp [stripCR, h]

theorem stripCR_subset {x : Byte} {a : List Byte} (h : x ∈ stripCR a) : x ∈ a := by
  unfold stripCR at h
  split at h
  · exact (List.dropLast_sublist a).subset h
  · exact h

theorem frameAux_concat {a : List Byte} (acc rest : List Byte)
    (h : (10 : Byte) ∉ a) :
    frameAux acc (a ++ 10 :: rest) =
      trimLineBreak ((acc.reverse ++ a) ++ [10]) :: frameAux [] rest := by
  induction a generalizing acc with
  | nil => simp [frameAux]
  | cons x a2 ih =>
    have hx : x ≠ 10 := fun e => h (e ▸ List.mem_cons_self _ _)
    have h2 : (10 : Byte) ∉ a2 := fun e => h (List.mem_cons_of_mem _ e)
    simp only [List.cons_append, frameAux, if_neg hx, List.append_eq]
    rw [ih (x :: acc) h2]
    simp [List.append_assoc]

theorem frameAux_final {a : List Byte} (acc : List Byte) (h : (10 : Byte) ∉ a)
    (hne : acc.reverse ++ a ≠ []) :
    frameAux acc a = [trimLineBreak (acc.reverse ++ a)] := by
  induction a generalizing acc with
  | nil =>
    rw [List.append_nil] at hne
    have hacc : acc ≠ [] := fun e => hne (by rw [e]; rfl)
    simp only [frameAux]
    rw [if_neg (by simpa [List.isEmpty_iff] using hacc), List.append_nil]
  | cons x a2 ih =>
    have hx : x ≠ 10 := fun e => h (e ▸ List.mem_cons_self _ _)
    have h2 : (10 : Byte) ∉ a2 := fun e => h (List.mem_cons_of_mem _ e)
    simp only [frameAux, if_neg hx, List.append_eq]
    rw [ih (x :: acc) h2 (by simp)]
    simp [List.append_assoc]

theorem frameLines_nil : frameLines [] = [] := rfl

theorem frameLines_split {a : List Byte} (rest : List Byte)
    (h : (10 : Byte) ∉ a) :
    frameLines (a ++ 10 :: rest) = stripCR a :: frameLines rest := by
  unfold frameLines
  rw [frameAux_concat [] rest h]
  simp [trimLineBreak_concat_newline]

theorem frameLines_final {a : List Byte} (h : (10 : Byte) ∉ a) (hne : a ≠ []) :
    frameLines a = [stripCR a] := by
  unfold frameLines
  rw [frameAux_final [] h (by simpa using hne)]
  simp only [List.reverse_nil, List.nil_append]
  rw [trimLineBreak_no_newline (fun he => h (getLast?_mem_self he))]

theorem frameAux_no_newline {s : List Byte} :
    ∀ {acc : List Byte}, (10 : Byte) ∉ acc →
      ∀ l ∈ frameAux acc s, (10 : Byte) ∉ l := by
  induction s with
  | nil =>
    intro acc hacc l hl
    simp only [frameAux] at hl
    split at hl
    · simp at hl
    · rw [List.mem_singleton.mp hl]
      intro hmem
      have : (10 : Byte) ∈ acc.reverse := by
        have h2 : acc.reverse.getLast? ≠ some 10 := by
          intro he
          exact hacc (List.mem_reverse.mp (getLast?_mem_self he))
        rw [trimLineBreak_no_newline h2] at hmem
        exact stripCR_subset hmem
      exact hacc (List.mem_reverse.mp this)
  | cons b rest ih =>
    intro acc hacc l hl
    simp only [frameAux] at hl
    split at hl
    · rename_i hb
      subst hb
      rcases List.mem_cons.mp hl with rfl | h2
      · rw [trimLineBreak_concat_newline]
        intro hmem
        exact hacc (List.mem_reverse.mp (stripCR_subset hmem))
      · exact ih (by simp) l h2
    · rename_i hb
      exact ih (by
        intro hmem
        rcases List.mem_cons.mp hmem with he | he
        · exact hb he.symm
        · exact hacc he) l hl

theorem frameLines_no_newline {s : List Byte} :
    ∀ l ∈ frameLines s, (10 : Byte) ∉ l :=
  frameAux_no_newline (by simp)

theorem linesToBytes_nil : linesToBytes [] = [] := rfl

theorem linesToBytes_cons (l : Line) (ls : List Line) :
    linesToBytes (l :: ls) = l ++ 10 :: linesToBytes ls := by
  simp [linesToBytes]

theorem frameLines_linesToBytes {ls : List Line}
    (h : ∀ l ∈ ls, (10 : Byte) ∉ l) :
    frameLines (linesToBytes ls) = ls.map stripCR := by
  induction ls with
  | nil => rfl
  | cons l ls ih =>
    rw [linesToBytes_cons, frameLines_split _ (h l (List.mem_cons_self _ _))]
    rw [ih (fun x hx => h x (List.mem_cons_of_mem _ hx))]
    rfl

theorem map_stripCR_id {ls : List Line} (h : ∀ l ∈ ls, l.getLast? ≠ some 13) :
    ls.map stripCR = ls := by
  have : ∀ l ∈ ls, stripCR l = id l := fun l hl => stripCR_eq_self (h l hl)
  rw [List.map_congr_left this, List.map_id]

theorem frameLines_linesToBytes_self {ls : List Line}
    (h10 : ∀ l ∈ ls, (10 : Byte) ∉ l)
    (hcr : ∀ l ∈ ls, l.getLast? ≠ some 13) :
    frameLines (linesToBytes ls) = ls := by
  rw [frameLines_linesToBytes h10, map_stripCR_id hcr]

/-! ## Source-array bookkeeping for the merge loop -/

theorem totalLen_nil : totalLen [] = 0 := rfl

theorem totalLen_cons (s : List Line) (ss : List (List Line)) :
    totalLen (s :: ss) = s.length + totalLen ss := by
  simp [totalLen]

theorem totalLen_all_nil {sources : List (List Line)} (h : totalLen sources = 0) :
    ∀ i, sources.getD i [] = [] := by
  induction sources with
  | nil => intro i; exact List.getD_eq_default _ _ (by simp)
  | cons s ss ih =>
    rw [totalLen_cons] at h
    intro i
    cases i with
    | zero =>
      rw [List.getD_cons_zero]
      exact List.length_eq_zero.mp (by omega)
    | succ n =>
      rw [List.getD_cons_succ]
      exact ih (by omega) n

theorem totalLen_set {sources : List (List Line)} {i : Nat} {next : Line}
    {rest : List Line} (h : sources.getD i [] = next :: rest) :
    totalLen (sources.set i rest) + 1 = totalLen sources := by
  induction sources generalizing i with
  | nil =>
    rw [List.getD_eq_default _ _ (by simp)] at h
    exact absurd h (by simp)
  | cons s ss ih =>
    cases i with
    | zero =>
      rw [List.getD_cons_zero] at h
      subst h
      rw [List.set_cons_zero, totalLen_cons, totalLen_cons]
      simp
      omega
    | succ n =>
      rw [List.getD_cons_succ] at h
      rw [List.set_cons_succ, totalLen_cons, totalLen_cons, ← ih h]
      omega

theorem getD_set_self {sources : List (List Line)} {i : Nat} {a : List Line}
    (h : i < sources.length) : (sources.set i a).getD i [] = a := by
  rw [List.getD_eq_getElem?_getD, List.getElem?_set_self h]
  rfl

theorem getD_set_ne {sources : List (List Line)} {i j : Nat} (h : i ≠ j)
    {a : List Line} : (sources.set i a).getD j [] = sources.getD j [] := by
  rw [List.getD_eq_getElem?_getD, List.getElem?_set_ne h, ← List.getD_eq_getElem?_getD]

/-! ## Merge-loop invariant

The heap drain of `merge_into_writer`: on sources that are strictly sorted,
with a heap that holds at most one entry per source, each entry below its
source's remaining lines, and a covering entry for every nonempty source,
the loop emits a strictly ascending sequence whose members are exactly the
unwritten lines (heap plus sources) other than the last written one. -/

theorem mergeLoop_spec (fuel : Nat) (sources : List (List Line))
    (heap : List (Line × Nat)) (lastWritten : Option Line)
    (hfuel : totalLen sources + heap.length ≤ fuel)
    (hsorted : ∀ i, List.Pairwise (fun a b => lineLt a b = true) (sources.getD i []))
    (hheap : ∀ p ∈ heap, p.2 < sources.length ∧
      ∀ l2 ∈ sources.getD p.2 [], lineLt p.1 l2 = true)
    (hidx : (heap.map Prod.snd).Nodup)
    (hcover : ∀ i, sources.getD i [] ≠ [] → ∃ l2, (l2, i) ∈ heap)
    (hlast : ∀ w, lastWritten = some w → ∀ p ∈ heap, lineLe w p.1 = true) :
    List.Pairwise (fun a b => lineLt a b = true)
        (mergeLoop fuel sources heap lastWritten) ∧
      (∀ w, lastWritten = some w →
        ∀ x ∈ mergeLoop fuel sources heap lastWritten, lineLt w x = true) ∧
      ∀ x, x ∈ mergeLoop fuel sources heap lastWritten ↔
        ((∃ p ∈ heap, p.1 = x) ∨ (∃ i, x ∈ sources.getD i [])) ∧
          lastWritten ≠ some x := by
  induction fuel generalizing sources heap lastWritten with
  | zero =>
    have hheapnil : heap = [] := by
      cases heap with
      | nil => rfl
      | cons p ps => simp at hfuel
    subst hheapnil
    have hsrcnil : ∀ i, sources.getD i [] = [] := totalLen_all_nil (by omega)
    refine ⟨by simp [mergeLoop], by simp [mergeLoop], ?_⟩
    intro x
    simp only [mergeLoop]
    constructor
    · intro hx
      simp at hx
    · rintro ⟨⟨p, hp, _⟩ | ⟨i, hi⟩, _⟩
      · simp at hp
      · rw [hsrcnil i] at hi
        simp at hi
  | succ fuel ih =>
    cases pm : popMin heap with
    | none =>
      have hheapnil : heap = [] := popMin_eq_none.mp pm
      subst hheapnil
      have hsrcnil : ∀ i, sources.getD i [] = [] := by
        intro i
        by_contra hne
        rcases hcover i hne with ⟨l2, hl2⟩
        simp at hl2
      have hunf : mergeLoop (fuel + 1) sources [] lastWritten = [] := by
        simp [mergeLoop, popMin]
      rw [hunf]
      refine ⟨by simp, by simp, ?_⟩
      intro x
      constructor
      · intro hx
        simp at hx
      · rintro ⟨⟨p, hp, _⟩ | ⟨i, hi⟩, _⟩
        · simp at hp
        · rw [hsrcnil i] at hi
          simp at hi
    | some t =>
      obtain ⟨⟨line, idx⟩, heapRest⟩ := t
      have hperm : heap.Perm ((line, idx) :: heapRest) := popMin_perm pm
      have hmin : ∀ p ∈ heap, pairLe (line, idx) p = true := popMin_min pm
      have hmem_heap : (line, idx) ∈ heap := hperm.mem_iff.mpr (List.mem_cons_self _ _)
      have hRest_sub : ∀ p ∈ heapRest, p ∈ heap :=
        fun p hp => hperm.mem_iff.mpr (List.mem_cons_of_mem _ hp)
      have hlen : heap.length = heapRest.length + 1 := by
        have h2 := hperm.length_eq
        simpa using h2
      have hidxlt : idx < sources.length := (hheap _ hmem_heap).1
      have hsrcgt : ∀ l2 ∈ sources.getD idx [], lineLt line l2 = true :=
        (hheap _ hmem_heap).2
      have hnd : (idx :: heapRest.map Prod.snd).Nodup := by
        have h2 : (heap.map Prod.snd).Perm (idx :: heapRest.map Prod.snd) := by
          simpa using hperm.map Prod.snd
        exact h2.nodup hidx
      have hidxout : idx ∉ heapRest.map Prod.snd := (List.nodup_cons.mp hnd).1
      have hndrest : (heapRest.map Prod.snd).Nodup := (List.nodup_cons.mp hnd).2
      have hResti : ∀ p ∈ heapRest, p.2 ≠ idx := by
        intro p hp he
        exact hidxout (he ▸ List.mem_map_of_mem Prod.snd hp)
      have hline_le : ∀ p ∈ heapRest, lineLe line p.1 = true :=
        fun p hp => pairLe_fst (hmin p (hRest_sub p hp))
      have hline_old : (∃ p ∈ heap, p.1 = line) := ⟨(line, idx), hmem_heap, rfl⟩
      cases hsrc : sources.getD idx [] with
      | nil =>
        have hunf : mergeLoop (fuel + 1) sources heap lastWritten =
            if lastWritten = some line then mergeLoop fuel sources heapRest lastWritten
            else line :: mergeLoop fuel sources heapRest (some line) := by
          simp only [mergeLoop, pm, hsrc]
        have hfuel2 : totalLen sources + heapRest.length ≤ fuel := by omega
        have hheap2 : ∀ p ∈ heapRest, p.2 < sources.length ∧
            ∀ l2 ∈ sources.getD p.2 [], lineLt p.1 l2 = true :=
          fun p hp => hheap p (hRest_sub p hp)
        have hcover2 : ∀ i, sources.getD i [] ≠ [] → ∃ l2, (l2, i) ∈ heapRest := by
          intro i hne
          rcases hcover i hne with ⟨l2, hl2⟩
          rcases List.mem_cons.mp (hperm.mem_iff.mp hl2) with he | he
          · exfalso
            have h3 : i = idx := congrArg Prod.snd he
            rw [h3, hsrc] at hne
            exact hne rfl
          · exact ⟨l2, he⟩
        have hnewle : ∀ p ∈ heapRest, lineLe line p.1 = true := hline_le
        have hsub : ∀ x, ((∃ p ∈ heapRest, p.1 = x) ∨ (∃ i, x ∈ sources.getD i [])) →
            ((∃ p ∈ heap, p.1 = x) ∨ (∃ i, x ∈ sources.getD i [])) := by
          rintro x (⟨p, hp, he⟩ | h)
          · exact Or.inl ⟨p, hRest_sub p hp, he⟩
          · exact Or.inr h
        have hback : ∀ x, x ≠ line →
            ((∃ p ∈ heap, p.1 = x) ∨ (∃ i, x ∈ sources.getD i [])) →
            ((∃ p ∈ heapRest, p.1 = x) ∨ (∃ i, x ∈ sources.getD i [])) := by
          rintro x hne (⟨p, hp, he⟩ | h)
          · rcases List.mem_cons.mp (hperm.mem_iff.mp hp) with he2 | he2
            · exfalso
              apply hne
              rw [← he, he2]
            · exact Or.inl ⟨p, he2, he⟩
          · exact Or.inr h
        by_cases hl : lastWritten = some line
        · rw [hunf, if_pos hl]
          have hlast2 : ∀ w, lastWritten = some w →
              ∀ p ∈ heapRest, lineLe w p.1 = true := by
            intro w hw p hp
            have he : line = w := by
              rw [hl] at hw
              exact Option.some_inj.mp hw
            rw [← he]
            exact hnewle p hp
          obtain ⟨IH1, IH2, IH3⟩ :=
            ih sources heapRest lastWritten hfuel2 hsorted hheap2 hndrest hcover2 hlast2
          refine ⟨IH1, IH2, ?_⟩
          intro x
          rw [IH3 x]
          constructor
          · rintro ⟨hu, hne⟩
            exact ⟨hsub x hu, hne⟩
          · rintro ⟨hu, hne⟩
            refine ⟨hback x ?_ hu, hne⟩
            intro he
            apply hne
            rw [hl, he]
        · rw [hunf, if_neg hl]
          have hlast2 : ∀ w, (some line : Option Line) = some w →
              ∀ p ∈ heapRest, lineLe w p.1 = true := by
            intro w hw p hp
            rw [← Option.some_inj.mp hw]
            exact hnewle p hp
          obtain ⟨IH1, IH2, IH3⟩ :=
            ih sources heapRest (some line) hfuel2 hsorted hheap2 hndrest hcover2 hlast2
          refine ⟨List.pairwise_cons.mpr ⟨IH2 line rfl, IH1⟩, ?_, ?_⟩
          · intro w hw x hx
            have hle : lineLe w line = true := hlast w hw (line, idx) hmem_heap
            rcases List.mem_cons.mp hx with rfl | hx2
            · refine lineLt_of_le_of_ne hle ?_
              intro he
              exact hl (he ▸ hw)
            · exact lineLt_of_le_of_lt hle (IH2 line rfl x hx2)
          · intro x
            constructor
            · intro hx
              rcases List.mem_cons.mp hx with rfl | hx2
              · exact ⟨Or.inl hline_old, hl⟩
              · obtain ⟨hu, _⟩ := (IH3 x).mp hx2
                refine ⟨hsub x hu, ?_⟩
                intro he
                have hlex : lineLe x line = true := hlast x he (line, idx) hmem_heap
                have hltx : lineLt line x = true := IH2 line rfl x hx2
                have h3 : lineLt x x = true := lineLt_of_le_of_lt hlex hltx
                rw [lineLt_irrefl] at h3
                exact absurd h3 (by simp)
            · rintro ⟨hu, hne⟩
              by_cases hxl : x = line
              · subst hxl
                exact List.mem_cons_self _ _
              · refine List.mem_cons_of_mem _ ((IH3 x).mpr ⟨hback x hxl hu, ?_⟩)
                intro he
                exact hxl (Option.some_inj.mp he).symm
      | cons next rest =>
        have hunf : mergeLoop (fuel + 1) sources heap lastWritten =
            if lastWritten = some line then
              mergeLoop fuel (sources.set idx rest) ((next, idx) :: heapRest) lastWritten
            else
              line ::
                mergeLoop fuel (sources.set idx rest) ((next, idx) :: heapRest)
                  (some line) := by
          simp only [mergeLoop, pm, hsrc]
        have hfuel2 : totalLen (sources.set idx rest) +
            ((next, idx) :: heapRest).length ≤ fuel := by
          have h2 := totalLen_set hsrc
          simp only [List.length_cons]
          omega
        have hsorted2 : ∀ i, List.Pairwise (fun a b => lineLt a b = true)
            ((sources.set idx rest).getD i []) := by
          intro i
          by_cases he : i = idx
          · subst he
            rw [getD_set_self hidxlt]
            have h2 := hsorted i
            rw [hsrc] at h2
            exact (List.pairwise_cons.mp h2).2
          · rw [getD_set_ne (fun e => he e.symm)]
            exact hsorted i
        have hheap2 : ∀ p ∈ (next, idx) :: heapRest,
            p.2 < (sources.set idx rest).length ∧
              ∀ l2 ∈ (sources.set idx rest).getD p.2 [], lineLt p.1 l2 = true := by
          intro p hp
          rcases List.mem_cons.mp hp with rfl | hp2
          · refine ⟨by simpa using hidxlt, ?_⟩
            rw [getD_set_self hidxlt]
            have h2 := hsorted idx
            rw [hsrc] at h2
            intro l2 hl2
            exact List.rel_of_pairwise_cons h2 hl2
          · have hne : p.2 ≠ idx := hResti p hp2
            constructor
            · simpa using (hheap p (hRest_sub p hp2)).1
            · rw [getD_set_ne (fun e => hne e.symm)]
              exact (hheap p (hRest_sub p hp2)).2
        have hidx2 : (((next, idx) :: heapRest).map Prod.snd).Nodup := by
          simpa using hnd
        have hcover2 : ∀ i, (sources.set idx rest).getD i [] ≠ [] →
            ∃ l2, (l2, i) ∈ (next, idx) :: heapRest := by
          intro i hne
          by_cases he : i = idx
          · subst he
            exact ⟨next, List.mem_cons_self _ _⟩
          · rw [getD_set_ne (fun e => he e.symm)] at hne
            rcases hcover i hne with ⟨l2, hl2⟩
            rcases List.mem_cons.mp (hperm.mem_iff.mp hl2) with he2 | he2
            · exact absurd (congrArg Prod.snd he2) he
            · exact ⟨l2, List.mem_cons_of_mem _ he2⟩
        have hnewle : ∀ p ∈ (next, idx) :: heapRest, lineLe line p.1 = true := by
          intro p hp
          rcases List.mem_cons.mp hp with rfl | hp2
          · exact lineLe_of_lineLt
              (hsrcgt next (by rw [hsrc]; exact List.mem_cons_self _ _))
          · exact hline_le p hp2
        have hsub : ∀ x, ((∃ p ∈ (next, idx) :: heapRest, p.1 = x) ∨
            (∃ i, x ∈ (sources.set idx rest).getD i [])) →
            ((∃ p ∈ heap, p.1 = x) ∨ (∃ i, x ∈ sources.getD i [])) := by
          rintro x (⟨p, hp, he⟩ | ⟨i, hi⟩)
          · rcases List.mem_cons.mp hp with rfl | hp2
            · exact Or.inr ⟨idx, by rw [hsrc, ← he]; exact List.mem_cons_self _ _⟩
            · exact Or.inl ⟨p, hRest_sub p hp2, he⟩
          · by_cases he : i = idx
            · subst he
              rw [getD_set_self hidxlt] at hi
              exact Or.inr ⟨i, by rw [hsrc]; exact List.mem_cons_of_mem _ hi⟩
            · rw [getD_set_ne (fun e => he e.symm)] at hi
              exact Or.inr ⟨i, hi⟩
        have hback : ∀ x, x ≠ line →
            ((∃ p ∈ heap, p.1 = x) ∨ (∃ i, x ∈ sources.getD i [])) →
            ((∃ p ∈ (next, idx) :: heapRest, p.1 = x) ∨
              (∃ i, x ∈ (sources.set idx rest).getD i [])) := by
          rintro x hne (⟨p, hp, he⟩ | ⟨i, hi⟩)
          · rcases List.mem_cons.mp (hperm.mem_iff.mp hp) with he2 | he2
            · exfalso
              apply hne
              rw [← he, he2]
            · exact Or.inl ⟨p, List.mem_cons_of_mem _ he2, he⟩
          · by_cases he : i = idx
            · subst he
              rw [hsrc] at hi
              rcases List.mem_cons.mp hi with rfl | hi2
              · exact Or.inl ⟨(x, i), List.mem_cons_self _ _, rfl⟩
              · exact Or.inr ⟨i, by rw [getD_set_self hidxlt]; exact hi2⟩
            · exact Or.inr ⟨i, by
                rw [getD_set_ne (fun e => he e.symm)]
                exact hi⟩
        by_cases hl : lastWritten = some line
        · rw [hunf, if_pos hl]
          have hlast2 : ∀ w, lastWritten = some w →
              ∀ p ∈ (next, idx) :: heapRest, lineLe w p.1 = true := by
            intro w hw p hp
            have he : line = w := by
              rw [hl] at hw
              exact Option.some_inj.mp hw
            rw [← he]
            exact hnewle p hp
          obtain ⟨IH1, IH2, IH3⟩ :=
            ih (sources.set idx rest) ((next, idx) :: heapRest) lastWritten hfuel2
              hsorted2 hheap2 hidx2 hcover2 hlast2
          refine ⟨IH1, IH2, ?_⟩
          intro x
          rw [IH3 x]
          constructor
          · rintro ⟨hu, hne⟩
            exact ⟨hsub x hu, hne⟩
          · rintro ⟨hu, hne⟩
            refine ⟨hback x ?_ hu, hne⟩
            intro he
            apply hne
            rw [hl, he]
        · rw [hunf, if_neg hl]
          have hlast2 : ∀ w, (some line : Option Line) = some w →
              ∀ p ∈ (next, idx) :: heapRest, lineLe w p.1 = true := by
            intro w hw p hp
            rw [← Option.some_inj.mp hw]
            exact hnewle p hp
          obtain ⟨IH1, IH2, IH3⟩ :=
            ih (sources.set idx rest) ((next, idx) :: heapRest) (some line) hfuel2
              hsorted2 hheap2 hidx2 hcover2 hlast2
          refine ⟨List.pairwise_cons.mpr ⟨IH2 line rfl, IH1⟩, ?_, ?_⟩
          · intro w hw x hx
            have hle : lineLe w line = true := hlast w hw (line, idx) hmem_heap
            rcases List.mem_cons.mp hx with rfl | hx2
            · refine lineLt_of_le_of_ne hle ?_
              intro he
              exact hl (he ▸ hw)
            · exact lineLt_of_le_of_lt hle (IH2 line rfl x hx2)
          · intro x
            constructor
            · intro hx
              rcases List.mem_cons.mp hx with rfl | hx2
              · exact ⟨Or.inl hline_old, hl⟩
              · obtain ⟨hu, _⟩ := (IH3 x).mp hx2
                refine ⟨hsub x hu, ?_⟩
                intro he
                have hlex : lineLe x line = true := hlast x he (line, idx) hmem_heap
                have hltx : lineLt line x = true := IH2 line rfl x hx2
                have h3 : lineLt x x = true := lineLt_of_le_of_lt hlex hltx
                rw [lineLt_irrefl] at h3
                exact absurd h3 (by simp)
            · rintro ⟨hu, hne⟩
              by_cases hxl : x = line
              · subst hxl
                exact List.mem_cons_self _ _
              · refine List.mem_cons_of_mem _ ((IH3 x).mpr ⟨hback x hxl hu, ?_⟩)
                intro he
                exact hxl (Option.some_inj.mp he).symm

/-! ## `initHeap` and `mergeIntoWriter` -/

theorem initHeap_fst (i : Nat) (ss : List (List Line)) :
    (initHeap i ss).1 = ss.map List.tail := by
  induction ss generalizing i with
  | nil => rfl
  | cons s ss2 ih =>
    cases s with
    | nil => simp [initHeap, ih (i + 1)]
    | cons l rest => simp [initHeap, ih (i + 1)]

theorem initHeap_len (i : Nat) (ss : List (List Line)) :
    totalLen (ss.map List.tail) + (initHeap i ss).2.length = totalLen ss := by
  induction ss generalizing i with
  | nil => rfl
  | cons s ss2 ih =>
    cases s with
    | nil =>
      simp only [List.map_cons, totalLen_cons, initHeap]
      have h2 := ih (i + 1)
      simp only [List.tail_nil, List.length_nil, Nat.zero_add]
      omega
    | cons l rest =>
      simp only [List.map_cons, totalLen_cons, initHeap, List.length_cons]
      have h2 := ih (i + 1)
      simp only [List.tail_cons]
      omega

theorem initHeap_snd_mem (i : Nat) (ss : List (List Line)) (p : Line × Nat) :
    p ∈ (initHeap i ss).2 ↔
      ∃ j, j < ss.length ∧ p.2 = i + j ∧ (ss.getD j []).head? = some p.1 := by
  induction ss generalizing i with
  | nil => simp [initHeap]
  | cons s ss2 ih =>
    cases s with
    | nil =>
      simp only [initHeap]
      rw [ih (i + 1)]
      constructor
      · rintro ⟨j, hj, he, hh⟩
        exact ⟨j + 1, by simpa using hj, by omega, by simpa [List.getD_cons_succ] using hh⟩
      · rintro ⟨j, hj, he, hh⟩
        cases j with
        | zero => simp [List.getD_cons_zero] at hh
        | succ j2 =>
          exact ⟨j2, by simpa using hj, by omega,
            by simpa [List.getD_cons_succ] using hh⟩
    | cons l rest =>
      simp only [initHeap, List.mem_cons]
      rw [ih (i + 1)]
      constructor
      · rintro (rfl | ⟨j, hj, he, hh⟩)
        · exact ⟨0, by simp, by simp, by simp [List.getD_cons_zero]⟩
        · exact ⟨j + 1, by simpa using hj, by omega, by simpa [List.getD_cons_succ] using hh⟩
      · rintro ⟨j, hj, he, hh⟩
        cases j with
        | zero =>
          left
          rw [List.getD_cons_zero] at hh
          simp only [List.head?_cons, Option.some_inj] at hh
          have h4 : p = (p.1, p.2) := rfl
          rw [h4, ← hh, he]
          simp
        | succ j2 =>
          right
          exact ⟨j2, by simpa using hj, by omega,
            by simpa [List.getD_cons_succ] using hh⟩

theorem initHeap_idx_ge (i : Nat) (ss : List (List Line)) :
    ∀ p ∈ (initHeap i ss).2, i ≤ p.2 := by
  intro p hp
  rw [initHeap_snd_mem] at hp
  rcases hp with ⟨j, _, he, _⟩
  omega

theorem initHeap_idx_nodup (i : Nat) (ss : List (List Line)) :
    ((initHeap i ss).2.map Prod.snd).Nodup := by
  induction ss generalizing i with
  | nil => simp [initHeap]
  | cons s ss2 ih =>
    cases s with
    | nil => simpa [initHeap] using ih (i + 1)
    | cons l rest =>
      simp only [initHeap, List.map_cons, List.nodup_cons]
      refine ⟨?_, ih (i + 1)⟩
      intro hmem
      rcases List.mem_map.mp hmem with ⟨p, hp, he⟩
      have h2 := initHeap_idx_ge (i + 1) ss2 p hp
      omega

theorem mem_getD_of_mem {s : List Line} {sources : List (List Line)}
    (h : s ∈ sources) : ∃ j, j < sources.length ∧ sources.getD j [] = s := by
  rcases List.getElem_of_mem h with ⟨n, hn, he⟩
  exact ⟨n, hn, by rw [List.getD_eq_getElem _ _ hn, he]⟩

theorem getD_mem_of_lt {sources : List (List Line)} {i : Nat}
    (h : i < sources.length) : sources.getD i [] ∈ sources := by
  rw [List.getD_eq_getElem _ _ h]
  exact List.getElem_mem h

theorem getD_map_tail (ss : List (List Line)) (i : Nat) :
    (ss.map List.tail).getD i [] = (ss.getD i []).tail := by
  induction ss generalizing i with
  | nil =>
    rw [List.getD_eq_default _ _ (by simp), List.getD_eq_default _ _ (by simp)]
    rfl
  | cons s ss2 ih =>
    cases i with
    | zero => simp [List.getD_cons_zero]
    | succ n => simpa [List.getD_cons_succ] using ih n

/-- `merge_into_writer` on sources whose record sequences are strictly
sorted: the written records are strictly ascending and are exactly the
records occurring in some source. -/
theorem mergeIntoWriter_spec (sources : List (List Line))
    (h : ∀ s ∈ sources, List.Pairwise (fun a b => lineLt a b = true) s) :
    List.Pairwise (fun a b => lineLt a b = true) (mergeIntoWriter sources) ∧
      ∀ x, x ∈ mergeIntoWriter sources ↔ ∃ s ∈ sources, x ∈ s := by
  cases hs : sources.isEmpty with
  | true =>
    have hnil : sources = [] := List.isEmpty_iff.mp hs
    subst hnil
    refine ⟨by simp [mergeIntoWriter], ?_⟩
    intro x
    simp [mergeIntoWriter]
  | false =>
    have hunf : mergeIntoWriter sources =
        mergeLoop (totalLen sources + 1) (initHeap 0 sources).1
          (initHeap 0 sources).2 none := by
      simp [mergeIntoWriter, hs]
    have hfst : (initHeap 0 sources).1 = sources.map List.tail := initHeap_fst 0 sources
    have hfuel : totalLen (initHeap 0 sources).1 + (initHeap 0 sources).2.length ≤
        totalLen sources + 1 := by
      rw [hfst]
      have h2 := initHeap_len 0 sources
      omega
    have hsorted : ∀ i, List.Pairwise (fun a b => lineLt a b = true)
        ((initHeap 0 sources).1.getD i []) := by
      intro i
      rw [hfst, getD_map_tail]
      by_cases hi : i < sources.length
      · exact List.Pairwise.sublist (List.tail_sublist (sources.getD i []))
          (h _ (getD_mem_of_lt hi))
      · rw [List.getD_eq_default _ _ (by omega)]
        simp
    have hheap : ∀ p ∈ (initHeap 0 sources).2,
        p.2 < (initHeap 0 sources).1.length ∧
          ∀ l2 ∈ (initHeap 0 sources).1.getD p.2 [], lineLt p.1 l2 = true := by
      intro p hp
      rcases (initHeap_snd_mem 0 sources p).mp hp with ⟨j, hj, he, hh⟩
      have he2 : p.2 = j := by omega
      subst he2
      rcases List.head?_eq_some_iff.mp hh with ⟨t, ht⟩
      refine ⟨by rw [hfst]; simpa using hj, ?_⟩
      rw [hfst, getD_map_tail, ht]
      intro l2 hl2
      have hpw := h _ (ht ▸ getD_mem_of_lt hj)
      exact List.rel_of_pairwise_cons hpw hl2
    have hcover : ∀ i, (initHeap 0 sources).1.getD i [] ≠ [] →
        ∃ l2, (l2, i) ∈ (initHeap 0 sources).2 := by
      intro i hne
      rw [hfst, getD_map_tail] at hne
      have hi : i < sources.length := by
        by_contra hge
        rw [List.getD_eq_default _ _ (by omega)] at hne
        exact hne rfl
      cases hgd : sources.getD i [] with
      | nil => rw [hgd] at hne; exact absurd rfl hne
      | cons l t =>
        refine ⟨l, (initHeap_snd_mem 0 sources (l, i)).mpr ⟨i, hi, by omega, ?_⟩⟩
        rw [hgd]
        rfl
    obtain ⟨H1, H2, H3⟩ := mergeLoop_spec (totalLen sources + 1)
      (initHeap 0 sources).1 (initHeap 0 sources).2 none hfuel hsorted hheap
      (initHeap_idx_nodup 0 sources) hcover (by intro w hw; exact absurd hw (by simp))
    rw [hunf]
    refine ⟨H1, ?_⟩
    intro x
    rw [H3 x]
    constructor
    · rintro ⟨⟨p, hp, he⟩ | ⟨i, hi⟩, _⟩
      · rcases (initHeap_snd_mem 0 sources p).mp hp with ⟨j, hj, _, hh⟩
        refine ⟨sources.getD j [], getD_mem_of_lt hj, ?_⟩
        rw [← he]
        exact List.mem_of_mem_head? (Option.mem_def.mpr hh)
      · rw [hfst, getD_map_tail] at hi
        have hlt : i < sources.length := by
          by_contra hge
          rw [List.getD_eq_default _ _ (by omega)] at hi
          simp at hi
        exact ⟨sources.getD i [], getD_mem_of_lt hlt,
          (List.tail_sublist _).subset hi⟩
    · rintro ⟨s, hsmem, hx⟩
      refine ⟨?_, by simp⟩
      rcases mem_getD_of_mem hsmem with ⟨j, hj, he⟩
      cases hsj : sources.getD j [] with
      | nil => rw [hsj] at he; rw [← he] at hx; simp at hx
      | cons l t =>
        rw [hsj] at he
        rw [← he] at hx
        rcases List.mem_cons.mp hx with rfl | hx2
        · refine Or.inl ⟨(x, j), ?_, rfl⟩
          refine (initHeap_snd_mem 0 sources (x, j)).mpr ⟨j, hj, by omega, ?_⟩
          rw [hsj]
          rfl
        · refine Or.inr ⟨j, ?_⟩
          rw [hfst, getD_map_tail, hsj]
          exact hx2

/-- On strictly sorted sources the merge writes exactly the sorted
deduplication of all source records. -/
theorem mergeIntoWriter_eq_flushedRun (sources : List (List Line))
    (h : ∀ s ∈ sources, List.Pairwise (fun a b => lineLt a b = true) s) :
    mergeIntoWriter sources = flushedRun sources.flatten := by
  rcases mergeIntoWriter_spec sources h with ⟨h1, h2⟩
  refine eq_of_pairwiseLt_ext h1 (flushedRun_pairwise _) ?_
  intro x
  rw [h2 x, mem_flushedRun, List.mem_flatten]

/-! ## Chunk builder lemmas -/

theorem build_eq (m : Nat) (files : List (List Byte)) :
    build m files =
      flushChunk ((allLines files).foldl (processLine m) ⟨[], 0, []⟩).chunk
        ((allLines files).foldl (processLine m) ⟨[], 0, []⟩).runs := by
  unfold build allLines
  rw [List.foldl_flatten, List.foldl_map]

theorem flushChunk_runs_sorted {c : List Line} {runs : List (List Line)}
    (h : ∀ r ∈ runs, List.Pairwise (fun a b => lineLt a b = true) r) :
    ∀ r ∈ flushChunk c runs, List.Pairwise (fun a b => lineLt a b = true) r := by
  intro r hr
  unfold flushChunk at hr
  split at hr
  · exact h r hr
  · rcases List.mem_append.mp hr with h2 | h2
    · exact h r h2
    · rw [List.mem_singleton.mp h2]
      exact flushedRun_pairwise c

theorem mem_flushChunk {x : Line} {c : List Line} {runs : List (List Line)} :
    (∃ r ∈ flushChunk c runs, x ∈ r) ↔ (∃ r ∈ runs, x ∈ r) ∨ x ∈ c := by
  unfold flushChunk
  split
  · rename_i hc
    rw [List.isEmpty_iff.mp hc]
    simp
  · constructor
    · rintro ⟨r, hr, hx⟩
      rcases List.mem_append.mp hr with h1 | h1
      · exact Or.inl ⟨r, h1, hx⟩
      · rw [List.mem_singleton.mp h1] at hx
        exact Or.inr (mem_flushedRun.mp hx)
    · rintro (⟨r, hr, hx⟩ | hx)
      · exact ⟨r, List.mem_append.mpr (Or.inl hr), hx⟩
      · exact ⟨flushedRun c, List.mem_append.mpr (Or.inr (List.mem_singleton.mpr rfl)),
          mem_flushedRun.mpr hx⟩

theorem processLine_runs_sorted {m : Nat} {st : BuildState} {l : Line}
    (h : ∀ r ∈ st.runs, List.Pairwise (fun a b => lineLt a b = true) r) :
    ∀ r ∈ (processLine m st l).runs, List.Pairwise (fun a b => lineLt a b = true) r := by
  by_cases hcond : m ≤ st.count + 1
  · have he : processLine m st l = ⟨[], 0, flushChunk (st.chunk ++ [l]) st.runs⟩ := by
      unfold processLine
      rw [if_pos hcond]
    rw [he]
    exact flushChunk_runs_sorted h
  · have he : processLine m st l = ⟨st.chunk ++ [l], st.count + 1, st.runs⟩ := by
      unfold processLine
      rw [if_neg hcond]
    rw [he]
    exact h

theorem foldl_processLine_runs_sorted (m : Nat) (ls : List Line) (st : BuildState)
    (h : ∀ r ∈ st.runs, List.Pairwise (fun a b => lineLt a b = true) r) :
    ∀ r ∈ (ls.foldl (processLine m) st).runs,
      List.Pairwise (fun a b => lineLt a b = true) r := by
  induction ls generalizing st with
  | nil => exact h
  | cons l ls2 ih =>
    rw [List.foldl_cons]
    exact ih (processLine m st l) (processLine_runs_sorted h)

theorem foldl_processLine_mem (m : Nat) (ls : List Line) (st : BuildState) (x : Line) :
    ((∃ r ∈ (ls.foldl (processLine m) st).runs, x ∈ r) ∨
        x ∈ (ls.foldl (processLine m) st).chunk) ↔
      ((∃ r ∈ st.runs, x ∈ r) ∨ x ∈ st.chunk) ∨ x ∈ ls := by
  induction ls generalizing st with
  | nil => simp
  | cons l ls2 ih =>
    rw [List.foldl_cons, ih (processLine m st l)]
    by_cases hcond : m ≤ st.count + 1
    · have he : processLine m st l = ⟨[], 0, flushChunk (st.chunk ++ [l]) st.runs⟩ := by
        unfold processLine
        rw [if_pos hcond]
      rw [he]
      simp only [List.not_mem_nil, or_false]
      rw [mem_flushChunk]
      simp only [List.mem_append, List.mem_singleton, List.mem_cons, List.not_mem_nil, false_or, or_false, or_assoc]
    · have he : processLine m st l = ⟨st.chunk ++ [l], st.count + 1, st.runs⟩ := by
        unfold processLine
        rw [if_neg hcond]
      rw [he]
      simp only [List.mem_append, List.mem_singleton, List.mem_cons, List.not_mem_nil, false_or, or_false, or_assoc]

theorem build_runs_sorted (m : Nat) (files : List (List Byte)) :
    ∀ r ∈ build m files, List.Pairwise (fun a b => lineLt a b = true) r := by
  rw [build_eq]
  exact flushChunk_runs_sorted
    (foldl_processLine_runs_sorted m (allLines files) ⟨[], 0, []⟩ (by simp))

theorem build_mem (m : Nat) (files : List (List Byte)) (x : Line) :
    (∃ r ∈ build m files, x ∈ r) ↔ x ∈ allLines files := by
  rw [build_eq, mem_flushChunk]
  have h2 := foldl_processLine_mem m (allLines files) ⟨[], 0, []⟩ x
  rw [or_comm] at h2
  rw [or_comm, h2]
  simp

theorem mem_allLines {x : Line} {files : List (List Byte)} :
    x ∈ allLines files ↔ ∃ f ∈ files, x ∈ frameLines f := by
  unfold allLines
  rw [List.mem_flatten]
  constructor
  · rintro ⟨l, hl, hx⟩
    rcases List.mem_map.mp hl with ⟨f, hf, rfl⟩
    exact ⟨f, hf, hx⟩
  · rintro ⟨f, hf, hx⟩
    exact ⟨frameLines f, List.mem_map_of_mem _ hf, hx⟩

theorem allLines_no_newline {x : Line} {files : List (List Byte)}
    (h : x ∈ allLines files) : (10 : Byte) ∉ x := by
  rcases mem_allLines.mp h with ⟨f, _, hx⟩
  exact frameLines_no_newline x hx

/-! ## Fan-in grouping and merge rounds -/

theorem chunksOfK_flatten (fuel : Nat) (l : List (List Byte)) (h : l.length ≤ fuel) :
    (chunksOfK fuel l).flatten = l := by
  induction fuel generalizing l with
  | zero =>
    have hl : l = [] := List.length_eq_zero.mp (by omega)
    subst hl
    rfl
  | succ f ih =>
    unfold chunksOfK
    by_cases he : l.isEmpty
    · rw [if_pos he, List.isEmpty_iff.mp he]
      rfl
    · rw [if_neg he]
      have hne : l ≠ [] := fun e => he (by rw [e]; rfl)
      have hlen : (l.drop MAX_OPEN_MERGE_FILES).length ≤ f := by
        rw [List.length_drop]
        have h1 : 1 ≤ l.length := List.length_pos.mpr hne
        unfold MAX_OPEN_MERGE_FILES
        omega
      rw [List.flatten_cons, ih (l.drop MAX_OPEN_MERGE_FILES) hlen]
      exact List.take_append_drop _ _

theorem chunksOfK_group_length (fuel : Nat) (l : List (List Byte)) :
    ∀ g ∈ chunksOfK fuel l, 1 ≤ g.length ∧ g.length ≤ MAX_OPEN_MERGE_FILES := by
  induction fuel generalizing l with
  | zero => intro g hg; simp [chunksOfK] at hg
  | succ f ih =>
    intro g hg
    unfold chunksOfK at hg
    by_cases he : l.isEmpty
    · rw [if_pos he] at hg
      simp at hg
    · rw [if_neg he] at hg
      rcases List.mem_cons.mp hg with rfl | h2
      · have hne : l ≠ [] := fun e => he (by rw [e]; rfl)
        have h1 : 1 ≤ l.length := List.length_pos.mpr hne
        rw [List.length_take]
        constructor
        · have : 1 ≤ MAX_OPEN_MERGE_FILES := by unfold MAX_OPEN_MERGE_FILES; omega
          omega
        · omega
      · exact ih (l.drop MAX_OPEN_MERGE_FILES) g h2

theorem chunksOfK_count (fuel : Nat) (l : List (List Byte)) (h : l.length ≤ fuel) :
    MAX_OPEN_MERGE_FILES * (chunksOfK fuel l).length ≤
      l.length + (MAX_OPEN_MERGE_FILES - 1) := by
  induction fuel generalizing l with
  | zero =>
    have hl : l = [] := List.length_eq_zero.mp (by omega)
    subst hl
    simp [chunksOfK]
  | succ f ih =>
    unfold chunksOfK
    by_cases he : l.isEmpty
    · rw [if_pos he]
      simp
    · rw [if_neg he]
      have hne : l ≠ [] := fun e => he (by rw [e]; rfl)
      have h1 : 1 ≤ l.length := List.length_pos.mpr hne
      have hlen : (l.drop MAX_OPEN_MERGE_FILES).length ≤ f := by
        rw [List.length_drop]
        unfold MAX_OPEN_MERGE_FILES
        omega
      have h2 := ih (l.drop MAX_OPEN_MERGE_FILES) hlen
      rw [List.length_drop] at h2
      rw [List.length_cons]
      unfold MAX_OPEN_MERGE_FILES at h2 ⊢
      omega

theorem mergeRound_length_lt {runs : List (List Byte)}
    (h : MAX_OPEN_MERGE_FILES < runs.length) :
    (mergeRound runs).length < runs.length := by
  unfold mergeRound
  rw [List.length_map]
  have h2 := chunksOfK_count runs.length runs (Nat.le_refl _)
  unfold MAX_OPEN_MERGE_FILES at h h2
  omega

theorem mergeRoundsFuel_length (fuel : Nat) (runs : List (List Byte))
    (h : runs.length ≤ fuel) :
    (mergeRoundsFuel fuel runs).length ≤ MAX_OPEN_MERGE_FILES := by
  induction fuel generalizing runs with
  | zero =>
    unfold mergeRoundsFuel
    unfold MAX_OPEN_MERGE_FILES
    omega
  | succ f ih =>
    unfold mergeRoundsFuel
    by_cases hgt : MAX_OPEN_MERGE_FILES < runs.length
    · rw [if_pos hgt]
      have h2 := mergeRound_length_lt hgt
      exact ih (mergeRound runs) (by omega)
    · rw [if_neg hgt]
      omega

/-! ## Run well-formedness through the merge -/

theorem goodRun_of_lines {ls : List Line}
    (hs : List.Pairwise (fun a b => lineLt a b = true) ls)
    (h10 : ∀ l ∈ ls, (10 : Byte) ∉ l)
    (hcr : ∀ l ∈ ls, l.getLast? ≠ some 13) :
    GoodRun (linesToBytes ls) ∧ frameLines (linesToBytes ls) = ls := by
  have hf : frameLines (linesToBytes ls) = ls := frameLines_linesToBytes_self h10 hcr
  refine ⟨⟨by rw [hf]; exact hs, ?_, by rw [hf]⟩, hf⟩
  rw [hf]
  exact fun l hl => ⟨h10 l hl, hcr l hl⟩

theorem mergeGroup_good {g : List (List Byte)} (hg : ∀ r ∈ g, GoodRun r) :
    GoodRun (mergeGroup g) ∧
      ∀ x, x ∈ frameLines (mergeGroup g) ↔ ∃ r ∈ g, x ∈ frameLines r := by
  have hs : ∀ s ∈ g.map frameLines, List.Pairwise (fun a b => lineLt a b = true) s := by
    intro s hsm
    rcases List.mem_map.mp hsm with ⟨r, hr, rfl⟩
    exact (hg r hr).1
  obtain ⟨h1, h2⟩ := mergeIntoWriter_spec (g.map frameLines) hs
  have hsrcmem : ∀ x, x ∈ mergeIntoWriter (g.map frameLines) ↔
      ∃ r ∈ g, x ∈ frameLines r := by
    intro x
    rw [h2 x]
    constructor
    · rintro ⟨s, hsm, hx⟩
      rcases List.mem_map.mp hsm with ⟨r, hr, rfl⟩
      exact ⟨r, hr, hx⟩
    · rintro ⟨r, hr, hx⟩
      exact ⟨frameLines r, List.mem_map_of_mem _ hr, hx⟩
  have h10 : ∀ l ∈ mergeIntoWriter (g.map frameLines), (10 : Byte) ∉ l := by
    intro l hl
    rcases (hsrcmem l).mp hl with ⟨r, hr, hx⟩
    exact ((hg r hr).2.1 l hx).1
  have hcr : ∀ l ∈ mergeIntoWriter (g.map frameLines), l.getLast? ≠ some 13 := by
    intro l hl
    rcases (hsrcmem l).mp hl with ⟨r, hr, hx⟩
    exact ((hg r hr).2.1 l hx).2
  obtain ⟨hgood, hf⟩ := goodRun_of_lines h1 h10 hcr
  refine ⟨hgood, ?_⟩
  intro x
  unfold mergeGroup
  rw [hf]
  exact hsrcmem x

theorem mergeRound_good {runs : List (List Byte)} (h : ∀ r ∈ runs, GoodRun r) :
    (∀ r ∈ mergeRound runs, GoodRun r) ∧
      ∀ x, (∃ r ∈ mergeRound runs, x ∈ frameLines r) ↔
        ∃ r ∈ runs, x ∈ frameLines r := by
  have hflat : (chunksOfK runs.length runs).flatten = runs :=
    chunksOfK_flatten runs.length runs (Nat.le_refl _)
  have hgood_g : ∀ g ∈ chunksOfK runs.length runs, ∀ r ∈ g, GoodRun r := by
    intro g hgm r hr
    exact h r (by rw [← hflat]; exact List.mem_flatten.mpr ⟨g, hgm, hr⟩)
  constructor
  · intro r hr
    unfold mergeRound at hr
    rcases List.mem_map.mp hr with ⟨g, hgm, rfl⟩
    cases g with
    | nil => exact (mergeGroup_good (by intro r hr; simp at hr)).1
    | cons r0 grest =>
      cases grest with
      | nil => exact hgood_g _ hgm r0 (List.mem_cons_self _ _)
      | cons r1 grest2 => exact (mergeGroup_good (hgood_g _ hgm)).1
  · intro x
    constructor
    · rintro ⟨r, hr, hx⟩
      unfold mergeRound at hr
      rcases List.mem_map.mp hr with ⟨g, hgm, rfl⟩
      cases g with
      | nil =>
        rw [(mergeGroup_good (by intro r hr; simp at hr)).2 x] at hx
        rcases hx with ⟨r, hr2, _⟩
        simp at hr2
      | cons r0 grest =>
        cases grest with
        | nil =>
          have hr0 : r0 ∈ runs := by
            rw [← hflat]
            exact List.mem_flatten.mpr ⟨[r0], hgm, List.mem_cons_self _ _⟩
          exact ⟨r0, hr0, hx⟩
        | cons r1 grest2 =>
          rw [(mergeGroup_good (hgood_g _ hgm)).2 x] at hx
          rcases hx with ⟨r, hr2, hx2⟩
          have hrmem : r ∈ runs := by
            rw [← hflat]
            exact List.mem_flatten.mpr ⟨_, hgm, hr2⟩
          exact ⟨r, hrmem, hx2⟩
    · rintro ⟨r, hr, hx⟩
      rw [← hflat] at hr
      rcases List.mem_flatten.mp hr with ⟨g, hgm, hrg⟩
      unfold mergeRound
      cases g with
      | nil => simp at hrg
      | cons r0 grest =>
        cases grest with
        | nil =>
          rw [List.mem_singleton.mp hrg] at hx
          exact ⟨r0, List.mem_map.mpr ⟨[r0], hgm, rfl⟩, hx⟩
        | cons r1 grest2 =>
          refine ⟨mergeGroup (r0 :: r1 :: grest2),
            List.mem_map.mpr ⟨r0 :: r1 :: grest2, hgm, rfl⟩, ?_⟩
          rw [(mergeGroup_good (hgood_g _ hgm)).2 x]
          exact ⟨r, hrg, hx⟩

theorem mergeRoundsFuel_good (fuel : Nat) (runs : List (List Byte))
    (h : ∀ r ∈ runs, GoodRun r) :
    (∀ r ∈ mergeRoundsFuel fuel runs, GoodRun r) ∧
      ∀ x, (∃ r ∈ mergeRoundsFuel fuel runs, x ∈ frameLines r) ↔
        ∃ r ∈ runs, x ∈ frameLines r := by
  induction fuel generalizing runs with
  | zero => exact ⟨h, fun x => Iff.rfl⟩
  | succ f ih =>
    unfold mergeRoundsFuel
    by_cases hgt : MAX_OPEN_MERGE_FILES < runs.length
    · rw [if_pos hgt]
      obtain ⟨hg1, hg2⟩ := mergeRound_good h
      obtain ⟨hh1, hh2⟩ := ih (mergeRound runs) hg1
      exact ⟨hh1, fun x => (hh2 x).trans (hg2 x)⟩
    · rw [if_neg hgt]
      exact ⟨h, fun x => Iff.rfl⟩

/-- `merge_chunks` on well-formed Runs equals the canonical output: the
sorted deduplication of all records of all Runs, one `\n` after each. -/
theorem merge_chunks_eq {runs : List (List Byte)} (h : ∀ r ∈ runs, GoodRun r) :
    merge_chunks runs = linesToBytes (flushedRun ((runs.map frameLines).flatten)) := by
  unfold merge_chunks
  by_cases he : runs.isEmpty
  · rw [if_pos he, List.isEmpty_iff.mp he]
    rfl
  · rw [if_neg he]
    obtain ⟨hg, hmem⟩ := mergeRoundsFuel_good runs.length runs h
    show linesToBytes
        (mergeIntoWriter ((mergeRoundsFuel runs.length runs).map frameLines)) = _
    rw [mergeIntoWriter_eq_flushedRun _ (by
      intro s hsm
      rcases List.mem_map.mp hsm with ⟨r, hr, rfl⟩
      exact (hg r hr).1)]
    congr 1
    apply eq_of_pairwiseLt_ext (flushedRun_pairwise _) (flushedRun_pairwise _)
    intro x
    rw [mem_flushedRun, mem_flushedRun, List.mem_flatten, List.mem_flatten]
    constructor
    · rintro ⟨s, hsm, hx⟩
      rcases List.mem_map.mp hsm with ⟨r, hr, rfl⟩
      rcases (hmem x).mp ⟨r, hr, hx⟩ with ⟨r2, hr2, hx2⟩
      exact ⟨frameLines r2, List.mem_map_of_mem _ hr2, hx2⟩
    · rintro ⟨s, hsm, hx⟩
      rcases List.mem_map.mp hsm with ⟨r, hr, rfl⟩
      rcases (hmem x).mpr ⟨r, hr, hx⟩ with ⟨r2, hr2, hx2⟩
      exact ⟨frameLines r2, List.mem_map_of_mem _ hr2, hx2⟩

/-! ## Pipeline correctness (for inputs without CR-terminated records) -/

/-- After chunk build and merge, the pipeline's output is exactly the
spec's promised output, provided no framed input record ends in `\r`
(records ending in `\r` are mangled when a Run is re-read, see the
counterexamples on the claims). -/
theorem executePipeline_eq_specOutput (chunkLines : Nat) (files : List (List Byte))
    (hcr : ∀ l ∈ allLines files, l.getLast? ≠ some 13) :
    executePipeline chunkLines files = specOutput files := by
  have hsorted := build_runs_sorted (validatedChunkLines chunkLines) files
  have h10 : ∀ run ∈ build (validatedChunkLines chunkLines) files,
      ∀ l ∈ run, (10 : Byte) ∉ l := fun run hrun l hl =>
    allLines_no_newline ((build_mem _ files l).mp ⟨run, hrun, hl⟩)
  have hcr2 : ∀ run ∈ build (validatedChunkLines chunkLines) files,
      ∀ l ∈ run, l.getLast? ≠ some 13 := fun run hrun l hl =>
    hcr l ((build_mem _ files l).mp ⟨run, hrun, hl⟩)
  have hframe : ∀ run ∈ build (validatedChunkLines chunkLines) files,
      frameLines (linesToBytes run) = run := fun run hrun =>
    frameLines_linesToBytes_self (h10 run hrun) (hcr2 run hrun)
  have hgood : ∀ r ∈ (build (validatedChunkLines chunkLines) files).map linesToBytes,
      GoodRun r := by
    intro r hr
    rcases List.mem_map.mp hr with ⟨run, hrun, rfl⟩
    exact (goodRun_of_lines (hsorted run hrun) (h10 run hrun) (hcr2 run hrun)).1
  unfold executePipeline
  rw [merge_chunks_eq hgood]
  show _ = linesToBytes (flushedRun (allLines files))
  congr 1
  apply eq_of_pairwiseLt_ext (flushedRun_pairwise _) (flushedRun_pairwise _)
  intro x
  rw [mem_flushedRun, mem_flushedRun, List.mem_flatten]
  constructor
  · rintro ⟨s, hsm, hx⟩
    rcases List.mem_map.mp hsm with ⟨r, hr, rfl⟩
    rcases List.mem_map.mp hr with ⟨run, hrun, rfl⟩
    rw [hframe run hrun] at hx
    exact (build_mem _ _ x).mp ⟨run, hrun, hx⟩
  · intro hxall
    rcases (build_mem (validatedChunkLines chunkLines) files x).mpr hxall with
      ⟨run, hrun, hx⟩
    refine ⟨frameLines (linesToBytes run), ?_, by rw [hframe run hrun]; exact hx⟩
    exact List.mem_map_of_mem _ (List.mem_map_of_mem _ hrun)

theorem specOutput_lines_mem {files : List (List Byte)} {x : Line} :
    x ∈ flushedRun (allLines files) ↔ x ∈ allLines files :=
  mem_flushedRun

theorem flushedRun_idem (c : List Line) :
    flushedRun (flushedRun c) = flushedRun c :=
  eq_of_pairwiseLt_ext (flushedRun_pairwise _) (flushedRun_pairwise _)
    (fun _ => mem_flushedRun)

theorem allLines_singleton (f : List Byte) : allLines [f] = frameLines f := by
  unfold allLines
  simp

theorem specOutput_no_cr {files : List (List Byte)}
    (hcr : ∀ l ∈ allLines files, l.getLast? ≠ some 13) :
    ∀ l ∈ allLines [specOutput files], l.getLast? ≠ some 13 := by
  intro l hl
  rw [allLines_singleton] at hl
  have h2 : frameLines (specOutput files) = flushedRun (allLines files) := by
    show frameLines (linesToBytes (flushedRun (allLines files))) = _
    exact frameLines_linesToBytes_self
      (fun l2 hl2 => allLines_no_newline (mem_flushedRun.mp hl2))
      (fun l2 hl2 => hcr l2 (mem_flushedRun.mp hl2))
  rw [h2] at hl
  exact hcr l (mem_flushedRun.mp hl)

theorem specOutput_reRun {files : List (List Byte)}
    (hcr : ∀ l ∈ allLines files, l.getLast? ≠ some 13) :
    specOutput [specOutput files] = specOutput files := by
  show linesToBytes (flushedRun (allLines [specOutput files])) =
    linesToBytes (flushedRun (allLines files))
  congr 1
  rw [allLines_singleton]
  have h2 : frameLines (specOutput files) = flushedRun (allLines files) := by
    show frameLines (linesToBytes (flushedRun (allLines files))) = _
    exact frameLines_linesToBytes_self
      (fun l2 hl2 => allLines_no_newline (mem_flushedRun.mp hl2))
      (fun l2 hl2 => hcr l2 (mem_flushedRun.mp hl2))
  rw [h2, flushedRun_idem]

/-! ## Claims -/

/-- C1, counterexample: on the single input file `"a\r\r\n"` the framed
Line is `"a\r"`, but the pipeline outputs `"a\n"` — not the distinct input
Line `"a\r"` followed by `\n` — because re-reading the Run strips the `\r`
before the written `\n`.  So the output is not exactly the distinct Lines
of the inputs. -/
theorem c1_counterexample :
    executePipeline 2 [[97, 13, 13, 10]] = [97, 10] ∧
      specOutput [[97, 13, 13, 10]] = [97, 13, 10] ∧
      executePipeline 2 [[97, 13, 13, 10]] ≠ specOutput [[97, 13, 13, 10]] :=
  ⟨by decide, by decide, by decide⟩

/-- C1 (amended): for every input list none of whose framed Lines ends in
byte 13 (`\r`), the pipeline (chunk build followed by merge) outputs
exactly the distinct Lines across all inputs, each exactly once, in
strictly ascending byte order, each terminated by a single `\n`, with no
trailing blank line. -/
theorem c1_amended (chunkLines : Nat) (files : List (List Byte))
    (hcr : ∀ l ∈ allLines files, l.getLast? ≠ some 13) :
    executePipeline chunkLines files = specOutput files ∧
      ∃ records : List Line,
        executePipeline chunkLines files = linesToBytes records ∧
          List.Pairwise (fun a b => lineLt a b = true) records ∧
          ∀ x, x ∈ records ↔ x ∈ allLines files :=
  ⟨executePipeline_eq_specOutput chunkLines files hcr,
    flushedRun (allLines files),
    executePipeline_eq_specOutput chunkLines files hcr,
    flushedRun_pairwise _, fun _ => mem_flushedRun⟩

/-- C1 witness: the amended claim evaluated on the inputs
`"c\nb\na\na\n"` with chunk bound 2. -/
theorem c1_amended_witness :
    executePipeline 2 [[99, 10, 98, 10, 97, 10, 97, 10]] =
      specOutput [[99, 10, 98, 10, 97, 10, 97, 10]] :=
  (c1_amended 2 [[99, 10, 98, 10, 97, 10, 97, 10]] (by decide)).1

/-- C2, counterexample: `"a\r"` is a framer-produced Line (from input
`"a\r\r\n"`) containing no `\n`, yet writing it to a Run and re-framing
the Run yields `"a"`, not `"a\r"`: round-tripping does change a Line whose
last byte is `\r`. -/
theorem c2_counterexample :
    frameLines [97, 13, 13, 10] = [[97, 13]] ∧
      (10 : Byte) ∉ ([97, 13] : Line) ∧
      frameLines (([97, 13] : Line) ++ [10]) ≠ [[97, 13]] :=
  ⟨by decide, by decide, by decide⟩

/-- C2 (amended): for every Line containing no `\n` byte and whose last
byte is not `\r`, writing the Line to a Run (its bytes followed by one
`\n`) and re-reading through the Line framer yields the identical Line. -/
theorem c2_amended (l : Line) (h10 : (10 : Byte) ∉ l)
    (hcr : l.getLast? ≠ some 13) :
    frameLines (l ++ [10]) = [l] := by
  rw [frameLines_split [] h10, stripCR_eq_self hcr, frameLines_nil]

/-- C2 witness: round trip on the concrete Line `"ab"`. -/
theorem c2_amended_witness : frameLines (([97, 98] : Line) ++ [10]) = [[97, 98]] :=
  c2_amended [97, 98] (by decide) (by decide)

/-- C3: the framer splits a stream at `\n`; the payload before each `\n`
loses one trailing `\r` if present (`stripCR`); a final unterminated
fragment is still yielded, again with a lone trailing `\r` stripped; an
empty stream yields no Lines. -/
theorem c3_framer :
    (∀ a rest : List Byte, (10 : Byte) ∉ a →
        frameLines (a ++ 10 :: rest) = stripCR a :: frameLines rest) ∧
      (∀ a : List Byte, (10 : Byte) ∉ a → a ≠ [] → frameLines a = [stripCR a]) ∧
      frameLines [] = [] ∧
      ∀ a : List Byte, stripCR a = if a.getLast? = some 13 then a.dropLast else a :=
  ⟨fun _ rest h => frameLines_split rest h,
    fun _ h hne => frameLines_final h hne, rfl, fun _ => rfl⟩

/-- C3 witness: the framer evaluated on a CRLF-terminated segment and on
an unterminated CR-ending fragment. -/
theorem c3_framer_witness :
    frameLines (([97, 13] : List Byte) ++ 10 :: [98]) =
        stripCR [97, 13] :: frameLines [98] ∧
      frameLines [99, 13] = [stripCR [99, 13]] :=
  ⟨c3_framer.1 [97, 13] [98] (by decide), c3_framer.2.1 [99, 13] (by decide) (by decide)⟩

/-- C4: every Run the chunk builder produces is strictly ascending in byte
order, hence free of equal Lines; and once the chunk reaches the bound,
processing flushes the sorted deduplicated chunk as a new Run and clears
the chunk (and its counter). -/
theorem c4_runs_sorted (m : Nat) (files : List (List Byte)) :
    (∀ run ∈ build m files,
        List.Pairwise (fun a b => lineLt a b = true) run ∧ run.Nodup) ∧
      ∀ st : BuildState, ∀ l : Line, m ≤ st.count + 1 →
        (processLine m st l).chunk = [] ∧ (processLine m st l).count = 0 ∧
          (processLine m st l).runs = flushChunk (st.chunk ++ [l]) st.runs := by
  constructor
  · intro run hrun
    have h := build_runs_sorted m files run hrun
    exact ⟨h, pairwiseLt_nodup h⟩
  · intro st l hcond
    have he : processLine m st l = ⟨[], 0, flushChunk (st.chunk ++ [l]) st.runs⟩ := by
      unfold processLine
      rw [if_pos hcond]
    rw [he]
    exact ⟨rfl, rfl, rfl⟩

/-- C4 witness: the first Run built from `"c\nb\na\na\n"` with chunk
bound 2 is sorted and duplicate-free. -/
theorem c4_runs_sorted_witness :
    List.Pairwise (fun a b => lineLt a b = true) [[98], [99]] ∧
      ([[98], [99]] : List Line).Nodup :=
  (c4_runs_sorted 2 [[99, 10, 98, 10, 97, 10, 97, 10]]).1 [[98], [99]] (by decide)

/-- C5: the `while` loop of `merge_chunks` partitions the Runs into
consecutive groups of at least one and at most `K = 64` Runs (so no merge
invocation, and no merge round, ever holds more than `K` Runs open), the
groups cover the Run list exactly, and after the rounds at most `K` Runs
reach the final merge. -/
theorem c5_fan_in (runs : List (List Byte)) :
    (∀ g ∈ chunksOfK runs.length runs,
        1 ≤ g.length ∧ g.length ≤ MAX_OPEN_MERGE_FILES) ∧
      (chunksOfK runs.length runs).flatten = runs ∧
      (mergeRoundsFuel runs.length runs).length ≤ MAX_OPEN_MERGE_FILES ∧
      MAX_OPEN_MERGE_FILES = 64 :=
  ⟨chunksOfK_group_length _ _, chunksOfK_flatten _ _ (Nat.le_refl _),
    mergeRoundsFuel_length _ _ (Nat.le_refl _), rfl⟩

/-- C5 witness: the grouping evaluated on a one-Run list. -/
theorem c5_fan_in_witness :
    1 ≤ ([[97, 10]] : List (List Byte)).length ∧
      ([[97, 10]] : List (List Byte)).length ≤ MAX_OPEN_MERGE_FILES :=
  (c5_fan_in [[97, 10]]).1 [[97, 10]] (by decide)

/-- C6, counterexample: input `"a\r\r\r\n"` frames to the Line `"a\r\r"`;
the pipeline emits `"a\r\n"`, but feeding that output back as the sole
input emits `"a\n"` — not byte-identical, because each pass through a Run
strips one more trailing `\r`. -/
theorem c6_counterexample :
    executePipeline 2 [[97, 13, 13, 13, 10]] = [97, 13, 10] ∧
      executePipeline 2 [executePipeline 2 [[97, 13, 13, 13, 10]]] = [97, 10] ∧
      executePipeline 2 [executePipeline 2 [[97, 13, 13, 13, 10]]] ≠
        executePipeline 2 [[97, 13, 13, 13, 10]] :=
  ⟨by decide, by decide, by decide⟩

/-- C6 (amended): for every input list none of whose framed Lines ends in
byte 13 (`\r`), feeding the pipeline's output back as the sole input (with
any chunk bound) reproduces the output byte for byte. -/
theorem c6_amended (m m2 : Nat) (files : List (List Byte))
    (hcr : ∀ l ∈ allLines files, l.getLast? ≠ some 13) :
    executePipeline m2 [executePipeline m files] = executePipeline m files := by
  rw [executePipeline_eq_specOutput m files hcr,
    executePipeline_eq_specOutput m2 [specOutput files] (specOutput_no_cr hcr),
    specOutput_reRun hcr]

/-- C6 witness: idempotence on the concrete input `"b\na\n"`. -/
theorem c6_amended_witness :
    executePipeline 3 [executePipeline 2 [[98, 10, 97, 10]]] =
      executePipeline 2 [[98, 10, 97, 10]] :=
  c6_amended 2 3 [[98, 10, 97, 10]] (by decide)

/-- C7, counterexample: permuting the input files `"a\x0c\n"`,
`"a\r\r\n"`, `"zz\n"` (chunk bound 2) changes which Lines share a chunk;
the Line `"a\r"` loses its `\r` when its Run is re-read, and the two
orders produce different output bytes. -/
theorem c7_counterexample :
    ([[97, 12, 10], [122, 122, 10], [97, 13, 13, 10]] :
        List (List Byte)).Perm [[97, 12, 10], [97, 13, 13, 10], [122, 122, 10]] ∧
      executePipeline 2 [[97, 12, 10], [97, 13, 13, 10], [122, 122, 10]] ≠
        executePipeline 2 [[97, 12, 10], [122, 122, 10], [97, 13, 13, 10]] :=
  ⟨List.Perm.cons _ (List.Perm.swap _ _ _), by decide⟩

/-- C7 (amended): for every input list none of whose framed Lines ends in
byte 13 (`\r`), permuting the input file list does not change the output
file, even though chunk boundaries fall differently. -/
theorem c7_amended (m : Nat) (files files2 : List (List Byte))
    (hperm : files.Perm files2)
    (hcr : ∀ l ∈ allLines files, l.getLast? ≠ some 13) :
    executePipeline m files = executePipeline m files2 := by
  have hmem : ∀ x : Line, x ∈ allLines files ↔ x ∈ allLines files2 := by
    intro x
    rw [mem_allLines, mem_allLines]
    constructor
    · rintro ⟨f, hf, hx⟩
      exact ⟨f, hperm.mem_iff.mp hf, hx⟩
    · rintro ⟨f, hf, hx⟩
      exact ⟨f, hperm.mem_iff.mpr hf, hx⟩
  have hcr2 : ∀ l ∈ allLines files2, l.getLast? ≠ some 13 :=
    fun l hl => hcr l ((hmem l).mpr hl)
  rw [executePipeline_eq_specOutput m files hcr,
    executePipeline_eq_specOutput m files2 hcr2]
  show linesToBytes (flushedRun (allLines files)) =
    linesToBytes (flushedRun (allLines files2))
  congr 1
  exact eq_of_pairwiseLt_ext (flushedRun_pairwise _) (flushedRun_pairwise _)
    (fun x => by rw [mem_flushedRun, mem_flushedRun]; exact hmem x)

/-- C7 witness: swapping two concrete input files leaves the output
unchanged. -/
theorem c7_amended_witness :
    executePipeline 2 [[97, 10], [98, 10]] = executePipeline 2 [[98, 10], [97, 10]] :=
  c7_amended 2 [[97, 10], [98, 10]] [[98, 10], [97, 10]]
    (List.Perm.swap _ _ _) (by decide)

/-- C8: invoked with an empty Run list, the merge engine produces an
empty, zero-byte output file; consequently the whole pipeline on inputs
that frame to no Lines produces an empty output file. -/
theorem c8_empty (m : Nat) (files : List (List Byte)) :
    merge_chunks [] = [] ∧
      ((∀ f ∈ files, frameLines f = []) → executePipeline m files = []) := by
  refine ⟨rfl, ?_⟩
  intro h
  have hall : ∀ l : Line, l ∉ allLines files := by
    intro l hl
    rcases mem_allLines.mp hl with ⟨f, hf, hx⟩
    rw [h f hf] at hx
    simp at hx
  rw [executePipeline_eq_specOutput m files (fun l hl => absurd hl (hall l))]
  show linesToBytes (flushedRun (allLines files)) = []
  rw [List.eq_nil_iff_forall_not_mem.mpr hall]
  rfl

/-- C8 witness: the pipeline on one empty input file. -/
theorem c8_empty_witness : executePipeline 5 [[]] = [] :=
  (c8_empty 5 [[]]).2 (by decide)

/-- C9: the fallback directory exists only when the caller did not request
a directory and the system temp directory differs from the primary;
`create` tries the primary first and succeeds there when it can; when the
primary fails and the fallback also fails, the single error names both
attempted locations; with no fallback, the error names the primary. -/
theorem c9_scratch (systemTemp outputParent : Dir) (preferred : Option Dir)
    (ok : Dir → Bool) (f : TempFileFactory) :
    ((TempFileFactory.new systemTemp preferred outputParent).fallback ≠ none →
        preferred = none ∧
          (TempFileFactory.new systemTemp preferred outputParent).fallback =
            some systemTemp ∧
          systemTemp ≠ (TempFileFactory.new systemTemp preferred outputParent).primary) ∧
      (ok f.primary = true → f.create ok = .created f.primary) ∧
      (∀ fb, ok f.primary = false → f.fallback = some fb → ok fb = false →
        f.create ok = .failedBoth f.primary fb) ∧
      (ok f.primary = false → f.fallback = none →
        f.create ok = .failedPrimaryOnly f.primary) := by
  refine ⟨?_, ?_, ?_, ?_⟩
  · intro hne
    cases preferred with
    | some d =>
      exact absurd rfl hne
    | none =>
      have hnew : TempFileFactory.new systemTemp none outputParent =
          ⟨outputParent, if systemTemp ≠ outputParent then some systemTemp else none⟩ :=
        rfl
      rw [hnew] at hne ⊢
      by_cases he : systemTemp ≠ outputParent
      · rw [if_pos he]
        exact ⟨rfl, rfl, he⟩
      · rw [if_neg he] at hne
        exact absurd rfl hne
  · intro hok
    unfold TempFileFactory.create
    rw [hok]
    rfl
  · intro fb hok hfb hokfb
    unfold TempFileFactory.create
    simp [hok, hfb, hokfb]
  · intro hok hfb
    unfold TempFileFactory.create
    simp [hok, hfb]

/-- C9 witness: `create` evaluated on a concrete factory with both
directories writable and with both unwritable. -/
theorem c9_scratch_witness :
    TempFileFactory.create (fun _ => true) ⟨"p", some "q"⟩ =
        CreateOutcome.created "p" ∧
      TempFileFactory.create (fun _ => false) ⟨"p", some "q"⟩ =
        CreateOutcome.failedBoth "p" "q" :=
  ⟨(c9_scratch "t" "o" none (fun _ => true) ⟨"p", some "q"⟩).2.1 rfl,
    (c9_scratch "t" "o" none (fun _ => false) ⟨"p", some "q"⟩).2.2.1 "q" rfl rfl rfl⟩

/-- C10: the multiway merge is deterministic — the heap pop always returns
a least `(Line, source index)` pair, so equal Lines from different sources
are taken smallest-index first; the merge of a group is a function of the
framed Run contents alone; and the pipeline is a function of its inputs. -/
theorem c10_deterministic :
    (∀ heap m rest, popMin heap = some (m, rest) → ∀ p ∈ heap, pairLe m p = true) ∧
      (∀ heap (l : Line) (i j : Nat) rest, popMin heap = some ((l, i), rest) →
        (l, j) ∈ heap → i ≤ j) ∧
      (∀ g1 g2 : List (List Byte), g1.map frameLines = g2.map frameLines →
        mergeGroup g1 = mergeGroup g2) ∧
      ∀ (m : Nat) (files : List (List Byte)),
        executePipeline m files = executePipeline m files := by
  refine ⟨fun _ _ _ he => popMin_min he, ?_, ?_, fun _ _ => rfl⟩
  · intro heap l i j rest he hmem
    have h2 := popMin_min he (l, j) hmem
    unfold pairLe at h2
    rw [if_pos rfl] at h2
    simpa using h2
  · intro g1 g2 he
    unfold mergeGroup
    rw [he]

/-- C10 witness: with two sources holding the equal Line `"a"`, the pop
returns the entry with the smaller source index. -/
theorem c10_deterministic_witness :
    (∀ p ∈ [([97], 1), ([97], 0)], pairLe ([97], 0) p = true) ∧ (0 : Nat) ≤ 1 :=
  ⟨c10_deterministic.1 [([97], 1), ([97], 0)] ([97], 0) [([97], 1)] (by decide),
    c10_deterministic.2.1 [([97], 1), ([97], 0)] [97] 0 1 [([97], 1)]
      (by decide) (by decide)⟩

end Merger
